import Mathlib

/-!
# Combinatorial index utilities of `simplextree` (`utility/discrete.h`, `discreteR.cpp`)

A shallow embedding of the header `inst/include/utility/discrete.h` and of the R entry
points in `src/discreteR.cpp`.

* `size_t` is a natural number below `W = 2 ^ 64`; every `size_t` operation is written
  with an explicit `% W`.
* A read of `BC.combinations` outside the declared array bounds has no defined value; it is
  `none`, and every function that performs such a read returns `none`.
* `assert` is compiled out (`NDEBUG`, the setting of an R package build); it is embedded as the
  separate predicate `assert_ok`.
* `floor (sqrt x)` is the exact integer square root `Nat.sqrt x`. The source evaluates
  `std::sqrt` in double precision, whose rounded result can differ from the exact root for
  large arguments; the statements about `szudzik_unpair`, `inv_choose_2` and `to_subscript_2`
  are statements about the exact root.
* A write or read outside the bytes obtained from `alloca` has no defined behaviour either.
-/

namespace Discrete

/-! ## Machine integers -/

/-- The modulus of `size_t` (64-bit unsigned). -/
def W : Nat := 2 ^ 64

/-- Unsigned subtraction `a - b` in `size_t`, for `a, b < W`. -/
def subW (a b : Nat) : Nat := (W + a - b) % W

/-- Conversion of a signed integer to `size_t`. -/
def toSizeT (i : Int) : Nat := (i % (W : Int)).toNat

/-- Conversion to a 32-bit `int` (two's complement wrap), the `value_type` of the iterators
of `IntegerVector` and `IntegerMatrix`. -/
def toInt32 (x : Int) : Int := (x + 2 ^ 31) % 2 ^ 32 - 2 ^ 31

/-! ## Szudzik pairing (`discrete.h` lines 12-30) -/

/-- The function `szudzik_pair< T1, T2 >(x, y)`; `w2` is the bit width of `T2`.
`a = static_cast< T2 >(x)`, `b = static_cast< T2 >(y)`,
`a >= b ? a * a + a + b : a + b * b`, computed in `T2`. -/
def szudzik_pair (w2 : Nat) (x y : Nat) : Nat :=
  let a := x % 2 ^ w2
  let b := y % 2 ^ w2
  if a ≥ b then (a * a + a + b) % 2 ^ w2 else (a + b * b) % 2 ^ w2

/-- The function `szudzik_unpair< T1, T2 >(z)`; `w1`, `w2` are the bit widths of `T1`, `T2`.
`sqrtz = floor (sqrt z)`, `sqz = sqrtz * sqrtz` in `T1`, and
`(z - sqz) >= sqrtz ? (sqrtz, z - sqz - sqrtz) : (z - sqz, sqrtz)`, each component
cast to `T2`. -/
def szudzik_unpair (w1 w2 : Nat) (z : Nat) : Nat × Nat :=
  let sqrtz := Nat.sqrt z % 2 ^ w1
  let sqz := (sqrtz * sqrtz) % 2 ^ w1
  let d := (z + 2 ^ w1 - sqz) % 2 ^ w1
  if d ≥ sqrtz then (sqrtz % 2 ^ w2, ((d + 2 ^ w1 - sqrtz) % 2 ^ w1) % 2 ^ w2)
  else (d % 2 ^ w2, sqrtz % 2 ^ w2)

/-! ## Binomial coefficients (`discrete.h` lines 32-83) -/

/-- The template `bc_recursive< n, k >()`: `1` for `k = 0`, otherwise
`(n * bc_recursive< n - 1, k - 1 >()) / k` in `size_t` (the template argument `n - 1`
wraps at `n = 0`). -/
def bc_recursive : Nat → Nat → Nat
  | _, 0 => 1
  | n, k + 1 => ((n * bc_recursive (subW n 1) k) % W) / (k + 1)

/-- The constant `max_choose`. -/
def max_choose : Nat := 10

/-- The table `BC = BinomialCoefficientTable< max_choose, max_choose >()`:
`combinations[n+1][k]` with `combinations[i][j] = bc_recursive< i, j >()`. -/
def BC_combinations : List (List Nat) :=
  (List.range (max_choose + 1)).map fun i => (List.range max_choose).map fun j => bc_recursive i j

/-- The read `BC.combinations[n][k]`; `none` outside the bounds of the array. -/
def BC_get (n k : Nat) : Option Nat :=
  match BC_combinations.get? n with
  | none => none
  | some row => row.get? k

/-- The assertion `assert(n >= k - 1)` at the head of `BinomialCoefficient`
(`k - 1` in `size_t`). -/
def assert_ok (n k : Nat) : Bool := decide (n ≥ subW k 1)

/-- The function `BinomialCoefficient(n, k)`: `0` for `n = 0`, the table entry
for `1 ≤ n ≤ 9`, and for `n ≥ 10` the value `1` when `n == k || k == 0`, otherwise
`BinomialCoefficient(n-1, k-1) + BinomialCoefficient(n-1, min(n-1-k, k))`. -/
def BinomialCoefficient : Nat → Nat → Option Nat
  | 0, _ => some 0
  | n + 1, k =>
    if n + 1 ≤ 9 then BC_get (n + 1) k
    else if n + 1 = k ∨ k = 0 then some 1
    else
      match BinomialCoefficient n (subW k 1), BinomialCoefficient n (min (subW (subW (n + 1) 1) k) k) with
      | some a, some b => some ((a + b) % W)
      | _, _ => none

/-! ## Results of operations that can fail -/

/-- How a call can end other than by returning: the `std::out_of_range` exception thrown by
`to_subscript`, or an operation whose behaviour C++ leaves undefined (a read outside
`BC.combinations`, a conversion of a negative floating-point value to `size_t`, overflow of
a signed `int` sum, an access outside the buffer obtained from `alloca`). -/
inductive Fault where
  | out_of_range
  | undefined
  deriving DecidableEq, Repr

/-- Either a value or the fault that ended the computation. -/
inductive Res (α : Type) where
  | ok (a : α)
  | fault (f : Fault)
  deriving DecidableEq, Repr

/-! ## Closed forms for `k = 2` (`discrete.h` lines 96-106) -/

/-- One branch of `to_natural_2`: `n*i - i*(i+1)/2 + j - i - 1` in `size_t`. -/
def to_natural_2_branch (i j n : Nat) : Nat :=
  subW (subW ((subW ((n * i) % W) (((i * (i + 1)) % W) / 2) + j) % W) i) 1

/-- The function `to_natural_2(i, j, n)`:
`i < j ? n*i - i*(i+1)/2 + j - i - 1 : n*j - j*(j+1)/2 + i - j - 1`. -/
def to_natural_2 (i j n : Nat) : Nat :=
  if i < j then to_natural_2_branch i j n else to_natural_2_branch j i n

/-- The radicand `-8*x + 4*n*(n-1) - 7` of `to_subscript_2`, in `size_t`. -/
def to_subscript_2_radicand (x n : Nat) : Nat :=
  subW ((((W - 8) * x) % W + (((4 * n) % W) * subW n 1) % W) % W) 7

/-- The function `to_subscript_2(x, n)`.
`i = size_t (n - 2 - floor (sqrt (D) / 2.0 - 0.5))` with `D` the radicand and the square root
exact: `floor (sqrt D / 2 - 1/2)` is the floor of `(Nat.sqrt D - 1) / 2`, because the bounds
`2 m + 1 ≤ sqrt D < 2 m + 3` are between integers. `n - 2` is a `size_t`; the difference is
taken in floating point and its conversion to `size_t` is undefined when it is negative or
not below `2 ^ 64`.
`j = x + i + 1 - n*(n-1)/2 + (n-i)*((n-i)-1)/2` in `size_t`. -/
def to_subscript_2 (x n : Nat) : Option (Nat × Nat) :=
  let m : Int := ((Nat.sqrt (to_subscript_2_radicand x n) : Int) - 1) / 2
  let r : Int := (subW n 2 : Int) - m
  if r < 0 ∨ (W : Int) ≤ r then none
  else
    let i := r.toNat
    let j := (subW ((x + i + 1) % W) (((n * subW n 1) % W) / 2)
      + ((subW n i * subW (subW n i) 1) % W) / 2) % W
    some (i, j)

/-! ## General `k` (`discrete.h` lines 108-177) -/

/-- The `std::transform` of `to_natural_k`: each `num` of the block (an `int`, converted to
`size_t`) becomes `BinomialCoefficient((n-1) - num, i--)`, stored as `int_t = int`. -/
def to_natural_k_encode (n : Nat) : List Int → Nat → Option (List Int)
  | [], _ => some []
  | num :: rest, i =>
    match BinomialCoefficient (subW (subW n 1) (toSizeT num)) i, to_natural_k_encode n rest (subW i 1) with
    | some v, some vs => some (toInt32 (v : Int) :: vs)
    | _, _ => none

/-- The call `std::accumulate(encoded, encoded + k, 0)`: a sum in `int` starting from the `int`
literal `0`; overflow of the signed sum is undefined. -/
def accumulate_int : List Int → Int → Option Int
  | [], acc => some acc
  | x :: xs, acc =>
    if acc + x < -(2 ^ 31) ∨ 2 ^ 31 ≤ acc + x then none else accumulate_int xs (acc + x)

/-- Lines 112-122 of `to_natural_k` on a buffer `encoded` that holds the `k` values of
`int_t` written by `std::transform`, instantiated as in `to_natural_R` (iterators over
`int`): `N = BinomialCoefficient(n, k)` and the result is
`(N-1) - accumulate(encoded, encoded + k, 0)` in `size_t`. -/
def to_natural_k_buffered (c : List Int) (k n : Nat) : Option Nat :=
  match BinomialCoefficient n k with
  | none => none
  | some N =>
    match to_natural_k_encode n c k with
    | none => none
    | some encoded =>
      match accumulate_int encoded 0 with
      | none => none
      | some sum => some (subW (subW N 1) (toSizeT sum))

/-- The size in bytes of `int_t`, the `value_type` of the iterators: `int` for the
`IntegerMatrix` iterators of `to_natural_R`. -/
def sizeof_int_t : Nat := 4

/-- The function `to_natural_k(s, e, k, n)` on the block `[s, e)`. The buffer is
`static_cast< int_t* >(alloca(k))`, that is `k` bytes; `std::transform` writes one `int_t`
for every entry of the block and `std::accumulate` reads `k` of them, so the call is defined
only if both the entries of the block and `k` values of `int_t` fit in `k` bytes. Writing or
reading past the end of the buffer is undefined. -/
def to_natural_k (c : List Int) (k n : Nat) : Option Nat :=
  if c.length * sizeof_int_t ≤ k ∧ k * sizeof_int_t ≤ k then to_natural_k_buffered c k n
  else none

/-- The inner loop `while (value > z) { cc = pc - 1; value = BinomialCoefficient(cc, j); pc = cc; }`
of `to_subscript`, on the state `(cc, pc, value)`. The first argument bounds the number of
iterations; `none` is returned when it is used up. -/
def while_loop (z j : Nat) : Nat → Nat → Nat → Nat → Option (Res (Nat × Nat × Nat))
  | 0, cc, pc, value => if value > z then none else some (.ok (cc, pc, value))
  | fuel + 1, cc, pc, value =>
    if value > z then
      match BinomialCoefficient (subW pc 1) j with
      | none => some (.fault .undefined)
      | some v => while_loop z j fuel (subW pc 1) (subW pc 1) v
    else some (.ok (cc, pc, value))

/-- The loop `for (size_t j = k; j > 0; --j)` of `to_subscript`, from the current `j`, on the
state `(z, cc, pc, combination)`: `value = z + 1`, the inner loop, `z = z - value`,
`combination[(k+1)-j-1] = (n-1)-cc`. The inner loop is given `W + 1` iterations, more than it
can use. -/
def for_loop (n k : Nat) : Nat → Nat → Nat → Nat → List Nat → Option (Res (List Nat))
  | 0, _, _, _, combination => some (.ok combination)
  | j + 1, z, cc, pc, combination =>
    match while_loop z (j + 1) (W + 1) cc pc ((z + 1) % W) with
    | none => none
    | some (.fault f) => some (.fault f)
    | some (.ok (cc1, pc1, value)) =>
      for_loop n k j (subW z value) cc1 pc1
        (combination.set (subW (subW ((k + 1) % W) (j + 1)) 1) (subW (subW n 1) cc1))

/-- The body of the lambda of the `default` branch of `to_subscript` for one rank `i` (an
`int`), with `N = BinomialCoefficient(n, k)` already computed: the range check
`i < 0 || i >= N` (the comparison with `N` in `size_t`), then `z = (N-1)-i`, `cc = 0`,
`pc = n` and the `for` loop. Returns the new content of `combination`. -/
def to_subscript_k (N n k : Nat) (combination : List Nat) (i : Int) : Option (Res (List Nat)) :=
  if i < 0 ∨ toSizeT i ≥ N then some (.fault .out_of_range)
  else for_loop n k k (subW (subW N 1) (toSizeT i)) 0 n combination

/-- The `k = 2` branch of `to_subscript` for one rank: `cc = to_subscript_2(i, n)` moved into
`combination`. -/
def to_subscript_case2 (n : Nat) (combination : List Nat) (i : Int) : Option (Res (List Nat)) :=
  match to_subscript_2 (toSizeT i) n with
  | none => some (.fault .undefined)
  | some (a, b) => some (.ok ((combination.set 0 a).set 1 b))

/-- The `std::for_each` of `to_subscript`: runs `body` on every rank, threading the buffer
`combination` and collecting what the sink `f` receives; stops at the first fault. -/
def for_each (body : List Nat → Int → Option (Res (List Nat))) :
    List Int → List Nat → List (List Nat) → Option (List (List Nat) × Option Fault)
  | [], _, emitted => some (emitted, none)
  | i :: rest, combination, emitted =>
    match body combination i with
    | none => none
    | some (.fault f) => some (emitted, some f)
    | some (.ok c) => for_each body rest c (emitted ++ [c])

/-- The function `to_subscript(s, e, n, k, f)` on the ranks `[s, e)`: the list of combinations
passed to the sink `f`, in order, and the fault that ended the call, if any. `combination` is
resized to `k` zeros; `k = 2` uses `to_subscript_2`, every other `k` computes
`N = BinomialCoefficient(n, k)` once and runs the general loop. `none` would mean that an
inner loop did not finish within its iteration bound. -/
def to_subscript (ranks : List Int) (n k : Nat) : Option (List (List Nat) × Option Fault) :=
  if k = 2 then for_each (to_subscript_case2 n) ranks (List.replicate k 0) []
  else
    match BinomialCoefficient n k with
    | none => some ([], some .undefined)
    | some N => for_each (to_subscript_k N n k) ranks (List.replicate k 0) []

/-! ## Vocabulary for stating the properties of combinations -/

/-- A list whose entries increase strictly, start at `lo` or above and stay below `n`. -/
def IncreasingFrom (n : Nat) : Nat → List Nat → Prop
  | _, [] => True
  | lo, t :: ts => lo ≤ t ∧ t < n ∧ IncreasingFrom n (t + 1) ts

/-- The sum `C(n-1-t_0, j) + C(n-1-t_1, j-1) + ...` of mathematical binomial coefficients
along a combination: the quantity that `to_natural_k` subtracts from `N - 1`. -/
def dualSum (n : Nat) : Nat → List Nat → Nat
  | _, [] => 0
  | j, t :: ts => Nat.choose (n - 1 - t) j + dualSum n (j - 1) ts

/-- The summands of `dualSum`, in order: what `to_natural_k` stores in `encoded` when nothing
overflows. -/
def dualTerms (n : Nat) : Nat → List Nat → List Nat
  | _, [] => []
  | j, t :: ts => Nat.choose (n - 1 - t) j :: dualTerms n (j - 1) ts

/-! ## A record of the steps of the `for` loop of `to_subscript` -/

/-- One step of the `for` loop of `to_subscript`: the loop index `j`, the values of `z`, `cc`
and `pc` when the inner `while` loop is entered, and the values of `cc` and `value` when it
is left. -/
structure Step where
  j : Nat
  z : Nat
  cc_in : Nat
  pc : Nat
  cc : Nat
  value : Nat
  deriving DecidableEq, Repr

/-- The `for` loop of `to_subscript`, exactly as `for_loop`, but returning the record of its
steps instead of the buffer `combination`. -/
def for_loop_steps : Nat → Nat → Nat → Nat → Option (Res (List Step))
  | 0, _, _, _ => some (.ok [])
  | j + 1, z, cc, pc =>
    match while_loop z (j + 1) (W + 1) cc pc ((z + 1) % W) with
    | none => none
    | some (.fault f) => some (.fault f)
    | some (.ok (cc1, pc1, value)) =>
      match for_loop_steps j (subW z value) cc1 pc1 with
      | none => none
      | some (.fault f) => some (.fault f)
      | some (.ok rest) => some (.ok (⟨j + 1, z, cc, pc, cc1, value⟩ :: rest))

/-! ## Batch encoding (`discrete.h` lines 125-139) -/

/-- The loop `while (s != e)` of `to_natural` on the remaining input `[s, e)`, collecting what
the sink `f` receives. `case 2` passes `to_natural_2(*s, *std::next(s), n)`, every other `k`
passes `to_natural_k(s, s+k, k, n)`; then `s += k`. Reading past `e` is undefined. The first
argument bounds the number of iterations; `none` is returned when it is used up. -/
def to_natural_loop (k n : Nat) : Nat → List Int → List Nat → Option (List Nat × Option Fault)
  | _, [], emitted => some (emitted, none)
  | 0, _ :: _, _ => none
  | fuel + 1, a :: rest, emitted =>
    if k = 2 then
      match rest with
      | [] => some (emitted, some .undefined)
      | b :: _ =>
        to_natural_loop k n fuel ((a :: rest).drop k)
          (emitted ++ [to_natural_2 (toSizeT a) (toSizeT b) n])
    else if (a :: rest).length < k then some (emitted, some .undefined)
    else
      match to_natural_k ((a :: rest).take k) k n with
      | none => some (emitted, some .undefined)
      | some v => to_natural_loop k n fuel ((a :: rest).drop k) (emitted ++ [v])

/-- The function `to_natural(s, e, k, n, f)` on the flat input `[s, e)`: the values passed to
the sink, in order, and the fault that ended the call, if any. The loop is given one
iteration more than the input has entries, which is enough whenever `k ≥ 1`; for `k = 0`
the loop never advances and the result is `none`. -/
def to_natural (input : List Int) (k n : Nat) : Option (List Nat × Option Fault) :=
  to_natural_loop k n (input.length + 1) input []

/-- The rank that `to_natural` computes for one block of `k` entries: `to_natural_2` of its
two entries when `k = 2`, `to_natural_k` of the block otherwise. -/
def block_rank (k n : Nat) (block : List Int) : Option Nat :=
  if k = 2 then
    match block with
    | a :: b :: _ => some (to_natural_2 (toSizeT a) (toSizeT b) n)
    | _ => none
  else to_natural_k block k n

/-- The values a sink receives from a sequence of results, up to the first one that is
undefined. -/
def collect : List (Option Nat) → List Nat × Option Fault
  | [] => ([], none)
  | none :: _ => ([], some .undefined)
  | some v :: rest => (v :: (collect rest).1, (collect rest).2)

/-! ## Inverse of `C(n, 2)` (`discrete.h` lines 85-94) -/

/-- The `std::find_if` of `inv_choose_2` over the candidates `rng`, with the final
`it == end(rng) ? 0 : *it`: the first `n` with `x == BinomialCoefficient(n, 2)`, or `0`. -/
def inv_choose_2_find (x : Nat) : List Nat → Option Nat
  | [] => some 0
  | n :: rest =>
    match BinomialCoefficient n 2 with
    | none => none
    | some v => if x = v then some n else inv_choose_2_find x rest

/-- The function `inv_choose_2(x)`: `a = floor (sqrt (2*x))`, `b = ceil (sqrt (2*x) + 2)` with
`2*x` in `size_t` and the square root exact, so `b` is `a + 2` when `2*x` is a perfect
square and `a + 3` otherwise; `rng` is resized to `(b - a) + 1` entries and filled by
`std::iota` from `a`. -/
def inv_choose_2 (x : Nat) : Option Nat :=
  let v := (2 * x) % W
  let a := Nat.sqrt v
  let b := if a * a = v then a + 2 else a + 3
  inv_choose_2_find x ((List.range ((subW b a + 1) % W)).map fun t => (a + t) % W)

end Discrete

namespace Discrete

/-! ## Pairing: auxiliary facts -/

theorem szudzik_pair_exact (w1 w2 x y : Nat) (hw : 2 * w1 ≤ w2)
    (hx : x < 2 ^ w1) (hy : y < 2 ^ w1) :
    szudzik_pair w2 x y = if x ≥ y then x * x + x + y else x + y * y := by
  have hpow : 2 ^ w1 * 2 ^ w1 ≤ 2 ^ w2 := by
    rw [← pow_add]
    exact Nat.pow_le_pow_right (by norm_num) (by omega)
  have h1 : (1 : Nat) ≤ 2 ^ w1 := Nat.one_le_two_pow
  have hle : 2 ^ w1 ≤ 2 ^ w2 := le_trans (Nat.le_mul_of_pos_left _ (by omega)) hpow
  have hxx : x * x + x + x < 2 ^ w1 * 2 ^ w1 := by nlinarith
  have hyy : y * y + y + y < 2 ^ w1 * 2 ^ w1 := by nlinarith
  unfold szudzik_pair
  simp only [Nat.mod_eq_of_lt (lt_of_lt_of_le hx hle), Nat.mod_eq_of_lt (lt_of_lt_of_le hy hle)]
  by_cases h : x ≥ y
  · simp only [h, if_true]
    exact Nat.mod_eq_of_lt (by omega)
  · simp only [h, if_false]
    exact Nat.mod_eq_of_lt (by omega)

theorem sqrt_pair_ge (x y : Nat) (h : y ≤ x) : Nat.sqrt (x * x + x + y) = x := by
  rw [Nat.add_assoc]
  exact Nat.sqrt_add_eq x (by omega)

theorem sqrt_pair_lt (x y : Nat) (h : x < y) : Nat.sqrt (x + y * y) = y := by
  rw [Nat.add_comm]
  exact Nat.sqrt_add_eq y (by omega)

/-- C9. The pairing function is injective when the result type is wide enough that nothing
overflows: for arguments of a `w1`-bit type and a result type of at least `2 * w1` bits,
`szudzik_pair (a, b) = szudzik_pair (c, d)` implies `a = c` and `b = d`. -/
theorem szudzik_pair_injective (w1 w2 a b c d : Nat) (hw : 2 * w1 ≤ w2)
    (ha : a < 2 ^ w1) (hb : b < 2 ^ w1) (hc : c < 2 ^ w1) (hd : d < 2 ^ w1)
    (h : szudzik_pair w2 a b = szudzik_pair w2 c d) : a = c ∧ b = d := by
  rw [szudzik_pair_exact w1 w2 a b hw ha hb, szudzik_pair_exact w1 w2 c d hw hc hd] at h
  by_cases h1 : a ≥ b <;> by_cases h2 : c ≥ d
  · simp only [h1, h2, if_true] at h
    have e := congrArg Nat.sqrt h
    rw [sqrt_pair_ge a b h1, sqrt_pair_ge c d h2] at e
    subst e
    exact ⟨rfl, by omega⟩
  · simp only [h1, h2, if_true, if_false] at h
    have e := congrArg Nat.sqrt h
    rw [sqrt_pair_ge a b h1, sqrt_pair_lt c d (by omega)] at e
    subst e
    omega
  · simp only [h1, h2, if_true, if_false] at h
    have e := congrArg Nat.sqrt h
    rw [sqrt_pair_lt a b (by omega), sqrt_pair_ge c d h2] at e
    subst e
    omega
  · simp only [h1, h2, if_false] at h
    have e := congrArg Nat.sqrt h
    rw [sqrt_pair_lt a b (by omega), sqrt_pair_lt c d (by omega)] at e
    subst e
    exact ⟨by omega, rfl⟩

theorem szudzik_pair_injective_witness :
    szudzik_pair 64 3 5 = szudzik_pair 64 3 5 ∧ (3 = 3 ∧ 5 = 5) :=
  ⟨rfl, szudzik_pair_injective 32 64 3 5 3 5 (by decide) (by decide) (by decide) (by decide)
    (by decide) rfl⟩

theorem szudzik_pair_lt (w x y : Nat) : szudzik_pair w x y < 2 ^ w := by
  unfold szudzik_pair
  have h : 0 < 2 ^ w := Nat.two_pow_pos w
  dsimp only
  split <;> exact Nat.mod_lt _ h

theorem szudzik_pair_unpair (w z : Nat) (hz : z < 2 ^ w) :
    szudzik_pair w (szudzik_unpair w w z).1 (szudzik_unpair w w z).2 = z := by
  have hs1 : Nat.sqrt z * Nat.sqrt z ≤ z := Nat.sqrt_le z
  have hs2 : z < (Nat.sqrt z + 1) * (Nat.sqrt z + 1) := Nat.lt_succ_sqrt z
  have hs3 : Nat.sqrt z ≤ z := Nat.sqrt_le_self z
  unfold szudzik_unpair
  dsimp only
  generalize Nat.sqrt z = s at hs1 hs2 hs3 ⊢
  have hsm : s % 2 ^ w = s := Nat.mod_eq_of_lt (by omega)
  have hqm : (s * s) % 2 ^ w = s * s := Nat.mod_eq_of_lt (by omega)
  have hd : (z + 2 ^ w - s * s) % 2 ^ w = z - s * s := by
    have : z + 2 ^ w - s * s = (z - s * s) + 2 ^ w := by omega
    rw [this, Nat.add_mod_right]
    exact Nat.mod_eq_of_lt (by omega)
  simp only [hsm, hqm, hd]
  by_cases h : z - s * s ≥ s
  · rw [if_pos h]
    have hd2 : (z - s * s + 2 ^ w - s) % 2 ^ w = z - s * s - s := by
      have : z - s * s + 2 ^ w - s = (z - s * s - s) + 2 ^ w := by omega
      rw [this, Nat.add_mod_right]
      exact Nat.mod_eq_of_lt (by omega)
    have hb : z - s * s - s ≤ s := by
      have e : (s + 1) * (s + 1) = s * s + s + s + 1 := by ring
      omega
    unfold szudzik_pair
    simp only [hd2, hsm, Nat.mod_eq_of_lt (show z - s * s - s < 2 ^ w by omega)]
    simp only [ge_iff_le, hb, if_true]
    have : s * s + s + (z - s * s - s) = z := by omega
    rw [this]
    exact Nat.mod_eq_of_lt hz
  · rw [if_neg h]
    unfold szudzik_pair
    simp only [hsm, Nat.mod_eq_of_lt (show z - s * s < 2 ^ w by omega)]
    have hlt : ¬ (z - s * s ≥ s) := h
    simp only [hlt, if_false]
    have : z - s * s + s * s = z := by omega
    rw [this]
    exact Nat.mod_eq_of_lt hz

/-- C10. Unpairing is a right inverse of pairing: for every `z` of a `w`-bit unsigned type,
`szudzik_pair (szudzik_unpair z) = z` (exact integer square root), and therefore re-pairing
`szudzik_unpair (szudzik_pair (a, b))` gives `szudzik_pair (a, b)` for all `a`, `b`. -/
theorem szudzik_pair_unpair_right_inverse (w : Nat) :
    (∀ z, z < 2 ^ w →
      szudzik_pair w (szudzik_unpair w w z).1 (szudzik_unpair w w z).2 = z) ∧
    (∀ a b, szudzik_pair w (szudzik_unpair w w (szudzik_pair w a b)).1
      (szudzik_unpair w w (szudzik_pair w a b)).2 = szudzik_pair w a b) :=
  ⟨fun z hz => szudzik_pair_unpair w z hz,
   fun a b => szudzik_pair_unpair w _ (szudzik_pair_lt w a b)⟩

theorem szudzik_pair_unpair_right_inverse_witness :
    28 < 2 ^ 64 ∧ szudzik_pair 64 (szudzik_unpair 64 64 28).1 (szudzik_unpair 64 64 28).2 = 28 :=
  ⟨by decide, (szudzik_pair_unpair_right_inverse 64).1 28 (by decide)⟩

end Discrete

namespace Discrete

/-! ## Binomial coefficients: auxiliary facts -/

theorem W_pos : 0 < W := by unfold W; norm_num

theorem subW_eq (a b : Nat) (hb : b ≤ a) (ha : a < W) : subW a b = a - b := by
  unfold subW
  have : W + a - b = (a - b) + W := by omega
  rw [this, Nat.add_mod_right]
  exact Nat.mod_eq_of_lt (by omega)

theorem subW_lt (a b : Nat) : subW a b < W := Nat.mod_lt _ W_pos

theorem BinomialCoefficient_zero (k : Nat) : BinomialCoefficient 0 k = some 0 := by
  unfold BinomialCoefficient
  rfl

theorem BinomialCoefficient_table (n k : Nat) (h1 : 1 ≤ n) (h9 : n ≤ 9) (hk : k ≤ 9) :
    BinomialCoefficient n k = some (Nat.choose n k) := by
  interval_cases n <;> interval_cases k <;> decide

theorem choose_table_lt (n k : Nat) (h9 : n ≤ 9) (hk : k ≤ 9) : Nat.choose n k < W := by
  interval_cases n <;> interval_cases k <;> decide

theorem BinomialCoefficient_succ (n k : Nat) (hn : 9 ≤ n) (h : ¬ (n + 1 = k ∨ k = 0)) :
    BinomialCoefficient (n + 1) k =
      match BinomialCoefficient n (subW k 1),
        BinomialCoefficient n (min (subW (subW (n + 1) 1) k) k) with
      | some a, some b => some ((a + b) % W)
      | _, _ => none := by
  rw [BinomialCoefficient]
  rw [if_neg (by omega), if_neg h]

/-- Wherever the table is read inside its bounds, `BinomialCoefficient` is the binomial
coefficient reduced modulo `2 ^ 64`. -/
theorem BinomialCoefficient_eq_choose (n : Nat) :
    ∀ k, 1 ≤ n → n < W → (k ≤ 9 ∨ (10 ≤ n ∧ k ≤ n)) →
      BinomialCoefficient n k = some (Nat.choose n k % W) := by
  induction n with
  | zero => intro k h; omega
  | succ n ih =>
    intro k _ hW hk
    by_cases h9 : n + 1 ≤ 9
    · have hk9 : k ≤ 9 := by omega
      rw [BinomialCoefficient_table (n + 1) k (by omega) h9 hk9]
      rw [Nat.mod_eq_of_lt (choose_table_lt (n + 1) k h9 hk9)]
    · have hkn : k ≤ n + 1 := by omega
      by_cases hz : k = 0
      · subst hz
        rw [BinomialCoefficient, if_neg h9, if_pos (Or.inr rfl), Nat.choose_zero_right]
        rfl
      by_cases he : n + 1 = k
      · subst he
        rw [BinomialCoefficient, if_neg h9, if_pos (Or.inl rfl), Nat.choose_self]
        rfl
      obtain ⟨j, rfl⟩ : ∃ j, k = j + 1 := ⟨k - 1, by omega⟩
      have hjn : j + 1 ≤ n := by omega
      rw [BinomialCoefficient_succ n (j + 1) (by omega) (by omega)]
      have e1 : subW (j + 1) 1 = j := by rw [subW_eq _ _ (by omega) (by omega)]; rfl
      have e2 : subW (subW (n + 1) 1) (j + 1) = n - (j + 1) := by
        rw [subW_eq (n + 1) 1 (by omega) hW]
        exact subW_eq _ _ hjn (by omega)
      rw [e1, e2]
      have a1 : BinomialCoefficient n j = some (Nat.choose n j % W) := by
        apply ih j (by omega) (by omega)
        by_cases h10 : 10 ≤ n
        · exact Or.inr ⟨h10, by omega⟩
        · exact Or.inl (by omega)
      have a2 : BinomialCoefficient n (min (n - (j + 1)) (j + 1)) =
          some (Nat.choose n (j + 1) % W) := by
        have hm : Nat.choose n (min (n - (j + 1)) (j + 1)) = Nat.choose n (j + 1) := by
          rcases Nat.le_total (n - (j + 1)) (j + 1) with hle | hle
          · rw [Nat.min_eq_left hle]; exact Nat.choose_symm hjn
          · rw [Nat.min_eq_right hle]
        rw [← hm]
        apply ih _ (by omega) (by omega)
        by_cases h10 : 10 ≤ n
        · exact Or.inr ⟨h10, by omega⟩
        · exact Or.inl (by omega)
      rw [a1, a2]
      simp only [Nat.choose_succ_succ, Nat.add_mod_mod, Nat.mod_add_mod]

/-- For `1 ≤ n ≤ 9` and `k ≤ n` the table entry returned by `BinomialCoefficient` is the
closed form `n! / (k! (n-k)!)`. -/
theorem BinomialCoefficient_closed_form (n k : Nat) (h1 : 1 ≤ n) (h9 : n ≤ 9) (hk : k ≤ n) :
    BinomialCoefficient n k =
      some (Nat.factorial n / (Nat.factorial k * Nat.factorial (n - k))) := by
  rw [BinomialCoefficient_table n k h1 h9 (by omega), Nat.choose_eq_factorial_div_factorial hk]

/-- C7. At `n = k = 0` the closed form `n! / (k! (n-k)!)` is `1` and the precomputed entry
`BC.combinations[0][0]` is `1`, but `BinomialCoefficient(0, 0)` takes `case 0` and
returns `0`. -/
theorem BinomialCoefficient_zero_zero :
    BinomialCoefficient 0 0 = some 0 ∧ Nat.factorial 0 / (Nat.factorial 0 * Nat.factorial (0 - 0)) = 1
      ∧ BC_get 0 0 = some 1 ∧ BinomialCoefficient 5 2 = some 10 := by
  decide

/-- C8. For every `size_t` value `n ≥ 10` and every `k ≤ n` the recursion of
`BinomialCoefficient` ends (the function is total) and returns the binomial coefficient
`C(n, k)` reduced modulo `2 ^ 64`, that is `C(n, k)` itself when it fits in a `size_t`. -/
theorem BinomialCoefficient_large (n k : Nat) (hn : 10 ≤ n) (hW : n < W) (hk : k ≤ n) :
    BinomialCoefficient n k = some (Nat.choose n k % W) ∧
    (Nat.choose n k < W → BinomialCoefficient n k = some (Nat.choose n k)) := by
  have h := BinomialCoefficient_eq_choose n k (by omega) hW (Or.inr ⟨hn, hk⟩)
  refine ⟨h, fun hlt => ?_⟩
  rw [h, Nat.mod_eq_of_lt hlt]

theorem BinomialCoefficient_large_witness :
    BinomialCoefficient 10 3 = some 120 ∧ BinomialCoefficient 12 5 = some 792 :=
  ⟨by simpa using (BinomialCoefficient_large 10 3 (by decide) (by decide) (by decide)).2 (by decide),
   by simpa using (BinomialCoefficient_large 12 5 (by decide) (by decide) (by decide)).2 (by decide)⟩

end Discrete

namespace Discrete

/-! ## The general decoding loop always finishes for `k ≤ 9` -/

theorem BinomialCoefficient_defined (n j : Nat) (hn : n < W) (hj : j ≤ 9) :
    ∃ v, BinomialCoefficient n j = some v := by
  rcases Nat.eq_zero_or_pos n with h | h
  · subst h
    exact ⟨0, BinomialCoefficient_zero j⟩
  · exact ⟨_, BinomialCoefficient_eq_choose n j h hn (Or.inl hj)⟩

theorem while_loop_zero (z j cc pc value : Nat) :
    while_loop z j 0 cc pc value =
      if value > z then none else some (.ok (cc, pc, value)) := rfl

theorem while_loop_succ (z j fuel cc pc value : Nat) :
    while_loop z j (fuel + 1) cc pc value =
      if value > z then
        match BinomialCoefficient (subW pc 1) j with
        | none => some (.fault .undefined)
        | some v => while_loop z j fuel (subW pc 1) (subW pc 1) v
      else some (.ok (cc, pc, value)) := rfl

theorem while_loop_stop (z j fuel cc pc value : Nat) (h : ¬ value > z) :
    while_loop z j fuel cc pc value = some (.ok (cc, pc, value)) := by
  cases fuel with
  | zero => rw [while_loop_zero, if_neg h]
  | succ f => rw [while_loop_succ, if_neg h]

theorem while_loop_iter (z j fuel cc pc value v : Nat) (h : value > z)
    (hv : BinomialCoefficient (subW pc 1) j = some v) :
    while_loop z j (fuel + 1) cc pc value = while_loop z j fuel (subW pc 1) (subW pc 1) v := by
  rw [while_loop_succ, if_pos h, hv]

theorem while_loop_down (z j : Nat) (hj : j ≤ 9) :
    ∀ pc fuel cc value, pc ≤ fuel → pc < W → BinomialCoefficient pc j = some value →
      ∃ cc1 pc1 v1, while_loop z j fuel cc pc value = some (.ok (cc1, pc1, v1)) ∧ pc1 < W := by
  intro pc
  induction pc with
  | zero =>
    intro fuel cc value _ hW hv
    rw [BinomialCoefficient_zero] at hv
    have hv0 : value = 0 := by injection hv with e; exact e.symm
    subst hv0
    exact ⟨cc, 0, 0, while_loop_stop z j fuel cc 0 0 (by omega), hW⟩
  | succ pc ih =>
    intro fuel cc value hf hW hv
    by_cases h : value > z
    · obtain ⟨f, rfl⟩ : ∃ f, fuel = f + 1 := ⟨fuel - 1, by omega⟩
      have e : subW (pc + 1) 1 = pc := by rw [subW_eq _ _ (by omega) hW]; rfl
      obtain ⟨v, hv1⟩ := BinomialCoefficient_defined pc j (by omega) hj
      rw [while_loop_iter z j f cc (pc + 1) value v h (by rw [e]; exact hv1), e]
      exact ih f pc v (by omega) (by omega) hv1
    · exact ⟨cc, pc + 1, value, while_loop_stop z j fuel cc (pc + 1) value h, hW⟩

theorem while_loop_total (z j cc pc value : Nat) (hj : j ≤ 9) (hpc : pc < W) :
    ∃ cc1 pc1 v1, while_loop z j (W + 1) cc pc value = some (.ok (cc1, pc1, v1)) ∧ pc1 < W := by
  by_cases h : value > z
  · obtain ⟨v, hv⟩ := BinomialCoefficient_defined (subW pc 1) j (subW_lt _ _) hj
    rw [while_loop_iter z j W cc pc value v h hv]
    exact while_loop_down z j hj (subW pc 1) W (subW pc 1) v (le_of_lt (subW_lt _ _))
      (subW_lt _ _) hv
  · exact ⟨cc, pc, value, while_loop_stop z j (W + 1) cc pc value h, hpc⟩

theorem for_loop_total (n k : Nat) :
    ∀ j z cc pc combination, j ≤ 9 → pc < W →
      ∃ c, for_loop n k j z cc pc combination = some (.ok c) ∧ c.length = combination.length := by
  intro j
  induction j with
  | zero =>
    intro z cc pc combination _ _
    exact ⟨combination, by rw [for_loop], rfl⟩
  | succ j ih =>
    intro z cc pc combination hj hpc
    obtain ⟨cc1, pc1, v1, hw, hpc1⟩ := while_loop_total z (j + 1) cc pc ((z + 1) % W) hj hpc
    rw [for_loop, hw]
    obtain ⟨c, hc, hl⟩ := ih (subW z v1) cc1 pc1
      (combination.set (subW (subW ((k + 1) % W) (j + 1)) 1) (subW (subW n 1) cc1))
      (by omega) hpc1
    exact ⟨c, hc, by rw [hl, List.length_set]⟩

theorem toSizeT_natCast (r : Nat) (hr : r < W) : toSizeT (r : Int) = r := by
  unfold toSizeT
  rw [← Int.natCast_mod, Int.toNat_natCast]
  exact Nat.mod_eq_of_lt hr

theorem to_subscript_k_in_range (N n k r : Nat) (combination : List Nat) (hr : r < W)
    (hN : r < N) :
    to_subscript_k N n k combination (r : Int) =
      for_loop n k k (subW (subW N 1) r) 0 n combination := by
  unfold to_subscript_k
  rw [toSizeT_natCast r hr, if_neg]
  rintro (h | h)
  · omega
  · omega

theorem to_subscript_k_out_of_range (N n k r : Nat) (combination : List Nat) (hr : r < W)
    (hN : N ≤ r) :
    to_subscript_k N n k combination (r : Int) = some (.fault .out_of_range) := by
  unfold to_subscript_k
  rw [toSizeT_natCast r hr, if_pos (Or.inr hN)]

/-- The range check of the general path is exact wherever the table is read inside its
bounds: for every `size_t` `n`, every `k ≤ 9` other than `2` and every unsigned rank `r`,
`N = BinomialCoefficient(n, k)` is defined, `to_subscript` on the single rank `r` throws
the out-of-range error when `r ≥ N`, and when `r < N` it raises nothing and passes exactly
one combination of length `k` to the sink. -/
theorem to_subscript_validation_exact (n k r : Nat) (hn : n < W) (hk2 : k ≠ 2) (hk : k ≤ 9)
    (hr : r < W) :
    ∃ N, BinomialCoefficient n k = some N ∧
      (N ≤ r → to_subscript [(r : Int)] n k = some ([], some Fault.out_of_range)) ∧
      (r < N → ∃ c, c.length = k ∧ to_subscript [(r : Int)] n k = some ([c], none)) := by
  obtain ⟨N, hN⟩ := BinomialCoefficient_defined n k hn hk
  refine ⟨N, hN, ?_, ?_⟩
  · intro h
    unfold to_subscript
    rw [if_neg hk2, hN]
    simp only [for_each, to_subscript_k_out_of_range N n k r _ hr h]
  · intro h
    obtain ⟨c, hc, hl⟩ := for_loop_total n k k (subW (subW N 1) r) 0 n (List.replicate k 0) hk hn
    refine ⟨c, by rw [hl, List.length_replicate], ?_⟩
    unfold to_subscript
    rw [if_neg hk2, hN]
    simp only [for_each, to_subscript_k_in_range N n k r _ hr h, hc, List.nil_append]

/-- C6. The validation of the general path is not exact at `n = k = 10`:
`BinomialCoefficient(10, 10)` is `1`, so the rank `0` is below it and passes the check
`i < 0 || i >= N`, but no combination is emitted: the first candidate of the loop is
`BinomialCoefficient(9, 10)`, which reads `BC.combinations[9][10]`, outside the second
dimension of the table. -/
theorem to_subscript_validation_k10 :
    BinomialCoefficient 10 10 = some 1 ∧ BinomialCoefficient 9 10 = none ∧
      to_subscript [0] 10 10 = some ([], some Fault.undefined) := by
  decide

end Discrete

namespace Discrete

/-! ## The `k = 2` branch of `to_subscript` has no range check -/

theorem sqrt_radicand_wrapped : Nat.sqrt 18446744073709551609 = 4294967295 :=
  (Nat.eq_sqrt.2 ⟨by norm_num, by norm_num⟩).symm

theorem to_subscript_2_rank10 : to_subscript_2 10 5 = none := by
  have hr : to_subscript_2_radicand 10 5 = 18446744073709551609 := by decide
  unfold to_subscript_2
  rw [hr, sqrt_radicand_wrapped]
  decide

theorem to_subscript_2_n1 :
    to_subscript_2 0 1 = some (18446744071562067968, 2305843008139952129) := by
  have hr : to_subscript_2_radicand 0 1 = 18446744073709551609 := by decide
  unfold to_subscript_2
  rw [hr, sqrt_radicand_wrapped]
  decide

theorem to_subscript_two (ranks : List Int) (n : Nat) :
    to_subscript ranks n 2 = for_each (to_subscript_case2 n) ranks [0, 0] [] := by
  unfold to_subscript
  rw [if_pos rfl]
  rfl

theorem for_each_single_fault (body : List Nat → Int → Option (Res (List Nat)))
    (i : Int) (combination : List Nat) (f : Fault)
    (h : body combination i = some (.fault f)) :
    for_each body [i] combination [] = some ([], some f) := by
  rw [for_each, h]

theorem for_each_single_ok (body : List Nat → Int → Option (Res (List Nat)))
    (i : Int) (combination c : List Nat)
    (h : body combination i = some (.ok c)) :
    for_each body [i] combination [] = some ([c], none) := by
  rw [for_each, h]
  rfl

theorem to_subscript_case2_fault (n : Nat) (c : List Nat) (i : Int)
    (h : to_subscript_2 (toSizeT i) n = none) :
    to_subscript_case2 n c i = some (.fault .undefined) := by
  unfold to_subscript_case2
  rw [h]

theorem to_subscript_case2_ok (n : Nat) (c : List Nat) (i : Int) (a b : Nat)
    (h : to_subscript_2 (toSizeT i) n = some (a, b)) :
    to_subscript_case2 n c i = some (.ok ((c.set 0 a).set 1 b)) := by
  unfold to_subscript_case2
  rw [h]

theorem toSizeT_ten : toSizeT 10 = 10 := by decide

theorem toSizeT_zero : toSizeT 0 = 0 := by decide

theorem to_subscript_2_rank10_cast : to_subscript_2 (toSizeT 10) 5 = none := by
  rw [toSizeT_ten]
  exact to_subscript_2_rank10

theorem to_subscript_2_n1_cast :
    to_subscript_2 (toSizeT 0) 1 = some (18446744071562067968, 2305843008139952129) := by
  rw [toSizeT_zero]
  exact to_subscript_2_n1

/-- C5. For `k = 2` the batch routine never performs the range check of the general path.
With `n = 5` the rank `10 = C(5,2)` is out of range, yet `to_subscript` goes straight into
`to_subscript_2`, whose index is the conversion of the negative value `3 - 2147483647` to
`size_t`, and no out-of-range failure is signalled; with `n = 1` every rank is out of range
and rank `0` is decoded to a pair without any failure. The general path does reject the
rank `10 = C(5,3)` for `n = 5`, `k = 3`. -/
theorem to_subscript_case2_no_range_check :
    to_subscript [10] 5 2 = some ([], some Fault.undefined) ∧
    to_subscript [0] 1 2 = some ([[18446744071562067968, 2305843008139952129]], none) ∧
    to_subscript [10] 5 3 = some ([], some Fault.out_of_range) := by
  refine ⟨?_, ?_, by decide⟩
  · rw [to_subscript_two]
    exact for_each_single_fault _ _ _ _
      (to_subscript_case2_fault 5 [0, 0] 10 to_subscript_2_rank10_cast)
  · rw [to_subscript_two]
    exact for_each_single_ok _ _ _ _
      (to_subscript_case2_ok 1 [0, 0] 0 _ _ to_subscript_2_n1_cast)

end Discrete

namespace Discrete

/-! ## Combinations and their dual sums -/

theorem IncreasingFrom_mono (n : Nat) (t : List Nat) (lo lo1 : Nat) (h : lo1 ≤ lo)
    (ht : IncreasingFrom n lo t) : IncreasingFrom n lo1 t := by
  cases t with
  | nil => trivial
  | cons a ts => exact ⟨le_trans h ht.1, ht.2.1, ht.2.2⟩

theorem IncreasingFrom_bounds (n : Nat) :
    ∀ (t : List Nat) (lo : Nat), IncreasingFrom n lo t → ∀ x ∈ t, lo ≤ x ∧ x < n := by
  intro t
  induction t with
  | nil => intro lo _ x hx; cases hx
  | cons a ts ih =>
    intro lo h x hx
    rcases List.mem_cons.1 hx with rfl | hx
    · exact ⟨h.1, h.2.1⟩
    · have h1 : lo ≤ a := h.1
      have h2 := ih (a + 1) h.2.2 x hx
      exact ⟨by omega, h2.2⟩

theorem IncreasingFrom_pairwise (n : Nat) :
    ∀ (t : List Nat) (lo : Nat), IncreasingFrom n lo t → t.Pairwise (· < ·) := by
  intro t
  induction t with
  | nil => intro lo _; exact List.Pairwise.nil
  | cons a ts ih =>
    intro lo h
    refine List.Pairwise.cons ?_ (ih (a + 1) h.2.2)
    intro x hx
    have h2 := IncreasingFrom_bounds n ts (a + 1) h.2.2 x hx
    exact Nat.lt_of_succ_le h2.1

theorem IncreasingFrom_of_pairwise (n : Nat) :
    ∀ (t : List Nat) (lo : Nat), t.Pairwise (· < ·) → (∀ x ∈ t, lo ≤ x ∧ x < n) →
      IncreasingFrom n lo t := by
  intro t
  induction t with
  | nil => intro lo _ _; trivial
  | cons a ts ih =>
    intro lo hp hb
    have ha := hb a (List.mem_cons_self a ts)
    refine ⟨ha.1, ha.2, ih (a + 1) (List.Pairwise.of_cons hp) ?_⟩
    intro x hx
    have h1 : a < x := List.rel_of_pairwise_cons hp hx
    have h2 := hb x (List.mem_cons_of_mem a hx)
    exact ⟨h1, h2.2⟩

/-- A combination of `j` entries starting at `lo` or above has a dual sum below
`C(n - lo, j)`. -/
theorem dualSum_lt (n : Nat) :
    ∀ (t : List Nat) (j lo : Nat), t.length = j → IncreasingFrom n lo t →
      dualSum n j t < Nat.choose (n - lo) j := by
  intro t
  induction t with
  | nil =>
    intro j lo hl _
    simp only [List.length_nil] at hl
    subst hl
    simp [dualSum]
  | cons a ts ih =>
    intro j lo hl h
    obtain ⟨i, rfl⟩ : ∃ i, j = i + 1 := ⟨ts.length, by simpa using hl.symm⟩
    have hts : ts.length = i := by simpa using hl
    have h1 := ih i (a + 1) hts h.2.2
    have ha : lo ≤ a := h.1
    have hn : a < n := h.2.1
    simp only [dualSum, Nat.add_sub_cancel]
    have e : n - (a + 1) = n - 1 - a := by omega
    rw [e] at h1
    have hp : Nat.choose (n - 1 - a + 1) (i + 1) =
        Nat.choose (n - 1 - a) i + Nat.choose (n - 1 - a) (i + 1) := Nat.choose_succ_succ _ _
    have hm : Nat.choose (n - 1 - a + 1) (i + 1) ≤ Nat.choose (n - lo) (i + 1) :=
      Nat.choose_le_choose _ (by omega)
    omega

theorem dualSum_ge_head (n j a : Nat) (ts : List Nat) :
    Nat.choose (n - 1 - a) j ≤ dualSum n j (a :: ts) := by
  simp only [dualSum]
  omega

/-- Two combinations of the same length with the same dual sum are equal. -/
theorem dualSum_injective (n : Nat) :
    ∀ (t s : List Nat) (j lo : Nat), t.length = j → s.length = j →
      IncreasingFrom n lo t → IncreasingFrom n lo s → dualSum n j t = dualSum n j s → t = s := by
  intro t
  induction t with
  | nil =>
    intro s j lo hl hs _ _ _
    simp only [List.length_nil] at hl
    subst hl
    exact (List.length_eq_zero.1 hs).symm
  | cons a ts ih =>
    intro s j lo hl hs ht hsI he
    obtain ⟨i, rfl⟩ : ∃ i, j = i + 1 := ⟨ts.length, by simpa using hl.symm⟩
    cases s with
    | nil => simp at hs
    | cons b ss =>
      have hts : ts.length = i := by simpa using hl
      have hss : ss.length = i := by simpa using hs
      have ta := dualSum_lt n (a :: ts) (i + 1) a hl ⟨le_refl a, ht.2.1, ht.2.2⟩
      have tb := dualSum_lt n (b :: ss) (i + 1) b hs ⟨le_refl b, hsI.2.1, hsI.2.2⟩
      have ga := dualSum_ge_head n (i + 1) a ts
      have gb := dualSum_ge_head n (i + 1) b ss
      have hab : a = b := by
        rcases Nat.lt_trichotomy a b with hlt | heq | hgt
        · have : Nat.choose (n - b) (i + 1) ≤ Nat.choose (n - 1 - a) (i + 1) :=
            Nat.choose_le_choose _ (by omega)
          omega
        · exact heq
        · have : Nat.choose (n - a) (i + 1) ≤ Nat.choose (n - 1 - b) (i + 1) :=
            Nat.choose_le_choose _ (by omega)
          omega
      subst hab
      have he2 : dualSum n i ts = dualSum n i ss := by
        simp only [dualSum, Nat.add_sub_cancel] at he
        omega
      rw [ih ss i (a + 1) hts hss ht.2.2 hsI.2.2 he2]

end Discrete

namespace Discrete

/-! ## The peeling loop of `to_subscript` computes the combinadic digits -/

theorem BinomialCoefficient_digit (m j : Nat) (hm : m < W) (hj1 : 1 ≤ j) (hj : j ≤ 9) :
    BinomialCoefficient m j = some (Nat.choose m j % W) := by
  rcases Nat.eq_zero_or_pos m with h | h
  · subst h
    obtain ⟨i, rfl⟩ : ∃ i, j = i + 1 := ⟨j - 1, by omega⟩
    rw [BinomialCoefficient_zero, Nat.choose_zero_succ]
    rfl
  · exact BinomialCoefficient_eq_choose m j h hm (Or.inl hj)

theorem choose_pos_index (m j : Nat) (hj1 : 1 ≤ j) (h : 0 < Nat.choose m j) : 1 ≤ m := by
  rcases Nat.eq_zero_or_pos m with h0 | h0
  · subst h0
    obtain ⟨i, rfl⟩ : ∃ i, j = i + 1 := ⟨j - 1, by omega⟩
    rw [Nat.choose_zero_succ] at h
    omega
  · exact h0

/-- From the state `cc = pc = m`, `value = C(m, j)` the inner loop stops at the largest
`cc ≤ m` with `C(cc, j) ≤ z`. -/
theorem while_loop_search (z j : Nat) (hj1 : 1 ≤ j) (hj : j ≤ 9) :
    ∀ m fuel, m ≤ fuel → m < W → z < Nat.choose (m + 1) j → Nat.choose (m + 1) j < W →
      ∃ cc, cc ≤ m ∧ Nat.choose cc j ≤ z ∧ z < Nat.choose (cc + 1) j ∧
        while_loop z j fuel m m (Nat.choose m j) = some (.ok (cc, cc, Nat.choose cc j)) := by
  intro m
  induction m with
  | zero =>
    intro fuel _ _ hz _
    obtain ⟨i, rfl⟩ : ∃ i, j = i + 1 := ⟨j - 1, by omega⟩
    refine ⟨0, le_refl 0, by rw [Nat.choose_zero_succ]; omega, hz, ?_⟩
    exact while_loop_stop z (i + 1) fuel 0 0 _ (by rw [Nat.choose_zero_succ]; omega)
  | succ m ih =>
    intro fuel hf hW hz hov
    by_cases h : Nat.choose (m + 1) j > z
    · obtain ⟨f, rfl⟩ : ∃ f, fuel = f + 1 := ⟨fuel - 1, by omega⟩
      have e : subW (m + 1) 1 = m := by rw [subW_eq _ _ (by omega) hW]; rfl
      have hle : Nat.choose (m + 1) j ≤ Nat.choose (m + 1 + 1) j :=
        Nat.choose_le_choose j (by omega)
      have hv : BinomialCoefficient (subW (m + 1) 1) j = some (Nat.choose m j) := by
        rw [e, BinomialCoefficient_digit m j (by omega) hj1 hj]
        have : Nat.choose m j ≤ Nat.choose (m + 1) j := Nat.choose_le_choose j (by omega)
        rw [Nat.mod_eq_of_lt (by omega)]
      rw [while_loop_iter z j f (m + 1) (m + 1) _ _ h hv, e]
      obtain ⟨cc, h1, h2, h3, h4⟩ := ih f (by omega) (by omega) h (by omega)
      exact ⟨cc, by omega, h2, h3, h4⟩
    · exact ⟨m + 1, le_refl _, by omega, hz,
        while_loop_stop z j fuel (m + 1) (m + 1) _ h⟩

/-- One run of the inner loop inside the `for` loop: entered with `value = z + 1` and
`z < C(pc, j)`, it stops at the largest `cc < pc` with `C(cc, j) ≤ z`. -/
theorem while_loop_first (z j cc0 pc : Nat) (hj1 : 1 ≤ j) (hj : j ≤ 9) (hpc : pc < W)
    (hz : z < Nat.choose pc j) (hov : Nat.choose pc j < W) :
    ∃ cc, cc < pc ∧ Nat.choose cc j ≤ z ∧ z < Nat.choose (cc + 1) j ∧
      while_loop z j (W + 1) cc0 pc ((z + 1) % W) = some (.ok (cc, cc, Nat.choose cc j)) := by
  have hp1 : 1 ≤ pc := choose_pos_index pc j hj1 (by omega)
  obtain ⟨m, rfl⟩ : ∃ m, pc = m + 1 := ⟨pc - 1, by omega⟩
  have e : subW (m + 1) 1 = m := by rw [subW_eq _ _ (by omega) hpc]; rfl
  have hz1 : (z + 1) % W = z + 1 := Nat.mod_eq_of_lt (by omega)
  have hv : BinomialCoefficient (subW (m + 1) 1) j = some (Nat.choose m j) := by
    rw [e, BinomialCoefficient_digit m j (by omega) hj1 hj]
    have : Nat.choose m j ≤ Nat.choose (m + 1) j := Nat.choose_le_choose j (by omega)
    rw [Nat.mod_eq_of_lt (by omega)]
  rw [hz1, while_loop_iter z j W cc0 (m + 1) (z + 1) _ (by omega) hv, e]
  obtain ⟨cc, h1, h2, h3, h4⟩ := while_loop_search z j hj1 hj m W (by omega) (by omega) hz hov
  exact ⟨cc, by omega, h2, h3, h4⟩

theorem take_set_succ (l : List Nat) (i v : Nat) (h : i < l.length) :
    (l.set i v).take (i + 1) = l.take i ++ [v] := by
  induction l generalizing i with
  | nil => simp at h
  | cons a as ih =>
    cases i with
    | zero => simp
    | succ i =>
      simp only [List.set_cons_succ, List.take_succ_cons, List.cons_append]
      rw [ih i (by simpa using h)]

theorem for_loop_zero (n k z cc pc : Nat) (combination : List Nat) :
    for_loop n k 0 z cc pc combination = some (.ok combination) := by
  rw [for_loop]

theorem for_loop_succ (n k j z cc pc cc1 pc1 value : Nat) (combination : List Nat)
    (h : while_loop z (j + 1) (W + 1) cc pc ((z + 1) % W) = some (.ok (cc1, pc1, value))) :
    for_loop n k (j + 1) z cc pc combination =
      for_loop n k j (subW z value) cc1 pc1
        (combination.set (subW (subW ((k + 1) % W) (j + 1)) 1) (subW (subW n 1) cc1)) := by
  rw [for_loop, h]

/-- The `for` loop from step `j`, entered with `z < C(pc, j)`: it fills the last `j` slots of
`combination` with a strictly increasing run of indices in `[n - pc, n)` whose dual sum
is `z`. -/
theorem for_loop_spec (n k : Nat) (hn : n < W) (hk : k + 1 < W) :
    ∀ j z cc0 pc combination, j ≤ 9 → j ≤ k → combination.length = k → pc ≤ n →
      z < Nat.choose pc j → Nat.choose pc j < W →
      ∃ t, t.length = j ∧ IncreasingFrom n (n - pc) t ∧ dualSum n j t = z ∧
        for_loop n k j z cc0 pc combination = some (.ok (combination.take (k - j) ++ t)) := by
  intro j
  induction j with
  | zero =>
    intro z cc0 pc combination _ _ hl _ hz _
    refine ⟨[], rfl, trivial, ?_, ?_⟩
    · rw [Nat.choose_zero_right] at hz
      simp only [dualSum]
      omega
    · rw [for_loop_zero, Nat.sub_zero, ← hl, List.take_length, List.append_nil]
  | succ j ih =>
    intro z cc0 pc combination hj hjk hl hpc hz hov
    obtain ⟨cc, hc1, hc2, hc3, hw⟩ :=
      while_loop_first z (j + 1) cc0 pc (by omega) hj (by omega) hz hov
    rw [for_loop_succ n k j z cc0 pc cc cc _ combination hw]
    have hpas : Nat.choose (cc + 1) (j + 1) = Nat.choose cc j + Nat.choose cc (j + 1) :=
      Nat.choose_succ_succ _ _
    have hmono : Nat.choose (cc + 1) (j + 1) ≤ Nat.choose pc (j + 1) :=
      Nat.choose_le_choose _ (by omega)
    have ez : subW z (Nat.choose cc (j + 1)) = z - Nat.choose cc (j + 1) :=
      subW_eq _ _ hc2 (by omega)
    have ei : subW (subW ((k + 1) % W) (j + 1)) 1 = k - (j + 1) := by
      rw [Nat.mod_eq_of_lt hk, subW_eq _ _ (by omega) hk, subW_eq _ _ (by omega) (by omega)]
      omega
    have ev : subW (subW n 1) cc = n - 1 - cc := by
      rw [subW_eq n 1 (by omega) hn, subW_eq _ _ (by omega) (by omega)]
    rw [ez, ei, ev]
    obtain ⟨t, ht1, ht2, ht3, ht4⟩ := ih (z - Nat.choose cc (j + 1)) cc cc
      (combination.set (k - (j + 1)) (n - 1 - cc)) (by omega) (by omega)
      (by rw [List.length_set]; exact hl) (by omega) (by omega) (by omega)
    refine ⟨(n - 1 - cc) :: t, by simp [ht1], ⟨by omega, by omega, ?_⟩, ?_, ?_⟩
    · have e : n - 1 - cc + 1 = n - cc := by omega
      rw [e]
      exact ht2
    · simp only [dualSum, Nat.add_sub_cancel, ht3]
      have e : n - 1 - (n - 1 - cc) = cc := by omega
      rw [e]
      omega
    · rw [ht4]
      have e : k - j = k - (j + 1) + 1 := by omega
      rw [e, take_set_succ _ _ _ (by omega), List.append_assoc]
      rfl

end Discrete

namespace Discrete

/-! ## The encoder `to_natural_k`: its buffer, and its value without overflow -/

theorem toInt32_natCast (x : Nat) (h : x < 2 ^ 31) : toInt32 (x : Int) = (x : Int) := by
  unfold toInt32
  have h1 : (x : Int) < 2 ^ 31 := by exact_mod_cast h
  have h0 : (0 : Int) ≤ (x : Int) := Int.natCast_nonneg x
  omega

theorem two_pow_31_lt_W : 2 ^ 31 < W := by unfold W; norm_num

theorem dualTerms_sum (n : Nat) :
    ∀ (t : List Nat) (j : Nat), (dualTerms n j t).sum = dualSum n j t := by
  intro t
  induction t with
  | nil => intro j; rfl
  | cons a ts ih =>
    intro j
    simp only [dualTerms, dualSum, List.sum_cons, ih]

theorem to_natural_k_encode_cons (n : Nat) (num : Int) (rest : List Int) (i v : Nat)
    (vs : List Int)
    (hv : BinomialCoefficient (subW (subW n 1) (toSizeT num)) i = some v)
    (hr : to_natural_k_encode n rest (subW i 1) = some vs) :
    to_natural_k_encode n (num :: rest) i = some (toInt32 (v : Int) :: vs) := by
  rw [to_natural_k_encode, hv, hr]

theorem to_natural_k_encode_spec (n : Nat) (hn : n < W) :
    ∀ (t : List Nat) (j lo : Nat), t.length = j → j ≤ 9 → IncreasingFrom n lo t →
      Nat.choose (n - lo) j ≤ 2 ^ 31 →
      to_natural_k_encode n (t.map fun x : Nat => (x : Int)) j =
        some ((dualTerms n j t).map fun x : Nat => (x : Int)) := by
  intro t
  induction t with
  | nil =>
    intro j lo _ _ _ _
    rfl
  | cons a ts ih =>
    intro j lo hl hj hI hb
    obtain ⟨i, rfl⟩ : ∃ i, j = i + 1 := ⟨ts.length, by simpa using hl.symm⟩
    have hts : ts.length = i := by simpa using hl
    have ha : lo ≤ a := hI.1
    have han : a < n := hI.2.1
    have h31 := two_pow_31_lt_W
    have hlt := dualSum_lt n (a :: ts) (i + 1) lo hl hI
    have hge := dualSum_ge_head n (i + 1) a ts
    have hpas : Nat.choose (n - 1 - a + 1) (i + 1) =
        Nat.choose (n - 1 - a) i + Nat.choose (n - 1 - a) (i + 1) := Nat.choose_succ_succ _ _
    have hm : Nat.choose (n - 1 - a + 1) (i + 1) ≤ Nat.choose (n - lo) (i + 1) :=
      Nat.choose_le_choose _ (by omega)
    have e1 : subW (subW n 1) (toSizeT (a : Int)) = n - 1 - a := by
      rw [toSizeT_natCast a (by omega), subW_eq n 1 (by omega) hn,
        subW_eq _ _ (by omega) (by omega)]
    have e2 : subW (i + 1) 1 = i := by
      rw [subW_eq _ _ (by omega) (by omega)]
      rfl
    have hv : BinomialCoefficient (subW (subW n 1) (toSizeT (a : Int))) (i + 1) =
        some (Nat.choose (n - 1 - a) (i + 1)) := by
      rw [e1, BinomialCoefficient_digit _ _ (by omega) (by omega) hj,
        Nat.mod_eq_of_lt (by omega)]
    have hrest0 := ih i (a + 1) hts (by omega) hI.2.2
      (by
        have e : n - (a + 1) = n - 1 - a := by omega
        rw [e]
        omega)
    have hrest : to_natural_k_encode n (ts.map fun x : Nat => (x : Int)) (subW (i + 1) 1) =
        some ((dualTerms n i ts).map fun x : Nat => (x : Int)) := by
      rw [e2]
      exact hrest0
    simp only [List.map_cons, dualTerms, Nat.add_sub_cancel]
    rw [to_natural_k_encode_cons n (a : Int) _ (i + 1) _ _ hv hrest,
      toInt32_natCast _ (by omega)]

theorem accumulate_int_spec :
    ∀ (xs : List Nat) (acc : Nat), acc + xs.sum < 2 ^ 31 →
      accumulate_int (xs.map fun x : Nat => (x : Int)) (acc : Int) =
        some (((acc + xs.sum : Nat) : Int)) := by
  intro xs
  induction xs with
  | nil =>
    intro acc _
    rfl
  | cons x xs ih =>
    intro acc h
    simp only [List.map_cons, List.sum_cons] at h ⊢
    have hx : ((acc : Int) + (x : Int)) = ((acc + x : Nat) : Int) := by push_cast; rfl
    have hb : ¬ ((acc : Int) + (x : Int) < -(2 ^ 31) ∨ 2 ^ 31 ≤ (acc : Int) + (x : Int)) := by
      have h1 : ((acc + x : Nat) : Int) < 2 ^ 31 := by
        have : acc + x < 2 ^ 31 := by omega
        exact_mod_cast this
      have h0 : (0 : Int) ≤ ((acc + x : Nat) : Int) := Int.natCast_nonneg _
      rw [hx]
      omega
    rw [accumulate_int, if_neg hb, hx, ih (acc + x) (by omega), Nat.add_assoc]

/-- For every `k ≥ 1` the `k` values of `int_t` read by `std::accumulate` do not fit in the
`k` bytes obtained from `alloca(k)`: the call of `to_natural_k` is undefined. -/
theorem to_natural_k_undefined (c : List Int) (k n : Nat) (hk : 1 ≤ k) :
    to_natural_k c k n = none := by
  unfold to_natural_k sizeof_int_t
  rw [if_neg]
  intro h
  omega

/-- On a buffer that holds its `k` values and without overflow, `to_natural_k` returns
`C(n,k) - 1` minus the dual sum of the block. -/
theorem to_natural_k_buffered_spec (n k : Nat) (t : List Nat) (h1 : 1 ≤ n) (hn : n < W)
    (hk : k ≤ 9)
    (hl : t.length = k) (hI : IncreasingFrom n 0 t) (hb : Nat.choose n k ≤ 2 ^ 31) :
    to_natural_k_buffered (t.map fun x : Nat => (x : Int)) k n =
      some (Nat.choose n k - 1 - dualSum n k t) := by
  have h31 := two_pow_31_lt_W
  have hlt := dualSum_lt n t k 0 hl hI
  rw [Nat.sub_zero] at hlt
  have hN : BinomialCoefficient n k = some (Nat.choose n k) := by
    rw [BinomialCoefficient_eq_choose n k h1 hn (Or.inl hk), Nat.mod_eq_of_lt (by omega)]
  have henc := to_natural_k_encode_spec n hn t k 0 hl hk hI (by rw [Nat.sub_zero]; exact hb)
  have hacc := accumulate_int_spec (dualTerms n k t) 0
    (by rw [dualTerms_sum, Nat.zero_add]; omega)
  rw [dualTerms_sum, Nat.zero_add] at hacc
  unfold to_natural_k_buffered
  rw [hN, henc]
  simp only []
  rw [show ((0 : Int)) = ((0 : Nat) : Int) from rfl, hacc]
  simp only []
  rw [toSizeT_natCast _ (by omega), subW_eq _ 1 (by omega) (by omega),
    subW_eq _ _ (by omega) (by omega)]

/-- For an in-range rank and without overflow, the general path of `to_subscript` returns the
combination whose dual sum is `C(n,k) - 1 - r`. -/
theorem to_subscript_k_spec (n k r : Nat) (hn : n < W) (hk : k ≤ 9)
    (hov : Nat.choose n k < W) (hr : r < Nat.choose n k) :
    ∃ t, t.length = k ∧ IncreasingFrom n 0 t ∧ dualSum n k t = Nat.choose n k - 1 - r ∧
      to_subscript_k (Nat.choose n k) n k (List.replicate k 0) (r : Int) = some (.ok t) := by
  have hW : k + 1 < W := by unfold W; omega
  obtain ⟨t, ht1, ht2, ht3, ht4⟩ := for_loop_spec n k hn hW k (Nat.choose n k - 1 - r) 0 n
    (List.replicate k 0) hk (le_refl k) (List.length_replicate k 0) (le_refl n) (by omega) hov
  refine ⟨t, ht1, by simpa using ht2, ht3, ?_⟩
  rw [to_subscript_k_in_range _ n k r _ (by omega) hr, subW_eq _ 1 (by omega) hov,
    subW_eq _ _ (by omega) (by omega), ht4]
  simp

theorem BinomialCoefficient_exact (n k : Nat) (h1 : 1 ≤ n) (hn : n < W) (hk : k ≤ 9)
    (hov : Nat.choose n k < W) : BinomialCoefficient n k = some (Nat.choose n k) := by
  rw [BinomialCoefficient_eq_choose n k h1 hn (Or.inl hk), Nat.mod_eq_of_lt hov]

theorem to_subscript_general (ranks : List Int) (n k N : Nat) (hk2 : k ≠ 2)
    (hN : BinomialCoefficient n k = some N) :
    to_subscript ranks n k = for_each (to_subscript_k N n k) ranks (List.replicate k 0) [] := by
  unfold to_subscript
  rw [if_neg hk2, hN]

end Discrete

namespace Discrete

/-! ## General `k`: decoded subscripts and the two round trips -/

/-- C4. Decoded subscripts are valid combinations wherever the table is read inside its
bounds and `C(n,k)` fits in a `size_t`: for every `n`, every `k ≠ 2` with `1 ≤ k ≤ n` and
`k ≤ 9`, and every rank `r < C(n,k)`, `to_subscript` emits one `k`-tuple that is strictly
increasing with every entry in `[0, n)`. -/
theorem to_subscript_valid_combination (n k r : Nat) (hn : n < W) (hk2 : k ≠ 2) (hk1 : 1 ≤ k)
    (hkn : k ≤ n) (hk9 : k ≤ 9) (hov : Nat.choose n k < W) (hr : r < Nat.choose n k) :
    ∃ c, to_subscript [(r : Int)] n k = some ([c], none) ∧ c.length = k ∧
      c.Pairwise (· < ·) ∧ ∀ x ∈ c, x < n := by
  obtain ⟨t, ht1, ht2, _, ht4⟩ := to_subscript_k_spec n k r hn hk9 hov hr
  refine ⟨t, ?_, ht1, IncreasingFrom_pairwise n t 0 ht2,
    fun x hx => (IncreasingFrom_bounds n t 0 ht2 x hx).2⟩
  rw [to_subscript_general _ n k _ hk2 (BinomialCoefficient_exact n k (by omega) hn hk9 hov)]
  exact for_each_single_ok _ _ _ _ ht4

theorem to_subscript_valid_combination_witness :
    ∃ c, to_subscript [((7 : Nat) : Int)] 10 3 = some ([c], none) ∧ c.length = 3 ∧
      c.Pairwise (· < ·) ∧ ∀ x ∈ c, x < 10 :=
  to_subscript_valid_combination 10 3 7 (by decide) (by decide) (by decide) (by decide)
    (by decide) (by decide) (by decide)

theorem choose_two_pow_63_3 :
    Nat.choose 9223372036854775808 3 =
      130772952820555849204043650451709075738951703176314617856 := by
  rw [Nat.choose_eq_descFactorial_div_factorial]
  decide

theorem to_subscript_rank_wrapped :
    to_subscript [((9223372036854775808 : Nat) : Int)] 9223372036854775808 3 =
      some ([], some Fault.out_of_range) := by
  have hN : BinomialCoefficient 9223372036854775808 3 = some 9223372036854775808 := by
    rw [BinomialCoefficient_eq_choose _ 3 (by decide) (by decide) (Or.inl (by decide)),
      choose_two_pow_63_3]
    decide
  rw [to_subscript_general _ _ 3 _ (by decide) hN]
  exact for_each_single_fault _ _ _ _
    (to_subscript_k_out_of_range _ _ 3 _ _ (by decide) (le_refl _))

/-- C4, as stated for every `n` and every `k` with `1 ≤ k ≤ n`, fails in two ways.
At `n = k = 10` rank `0` is below `C(10,10) = 1`, but the loop reads
`BC.combinations[9][10]`, outside the table, and no tuple is emitted. At `n = 2 ^ 63`,
`k = 3` the value `N = BinomialCoefficient(n, 3)` is `C(n,3)` reduced modulo `2 ^ 64`, that
is `2 ^ 63`, so the rank `2 ^ 63 < C(n,3)` is rejected as out of range. -/
theorem to_subscript_valid_combination_fails :
    ((0 : Nat) < Nat.choose 10 10 ∧
      to_subscript [0] 10 10 = some ([], some Fault.undefined)) ∧
    (9223372036854775808 < Nat.choose 9223372036854775808 3 ∧
      to_subscript [((9223372036854775808 : Nat) : Int)] 9223372036854775808 3 =
        some ([], some Fault.out_of_range)) := by
  refine ⟨by decide, ?_, to_subscript_rank_wrapped⟩
  rw [choose_two_pow_63_3]
  decide

theorem choose_le_252 (n k : Nat) (h10 : n ≤ 10) (hkn : k ≤ n) : Nat.choose n k ≤ 252 := by
  interval_cases n <;> interval_cases k <;> decide

/-- General-`k` round trip inside the table, on a buffer that holds the `k` encoded values:
for all `n`, `k` with `1 ≤ n ≤ 10`, `k ≤ n` and `k ≤ 9`, and every rank `r < C(n,k)`, the
general peeling loop of `to_subscript` produces a combination for `r`, and lines 112-122 of
`to_natural_k` applied to it (converted to `int`, as the R entry points do) give back
`r`. -/
theorem general_round_trip_buffered (n k r : Nat) (h1 : 1 ≤ n) (h10 : n ≤ 10) (hkn : k ≤ n)
    (hk9 : k ≤ 9) (hr : r < Nat.choose n k) :
    ∃ N c, BinomialCoefficient n k = some N ∧
      to_subscript_k N n k (List.replicate k 0) (r : Int) = some (.ok c) ∧
      to_natural_k_buffered (c.map fun x : Nat => toInt32 (x : Int)) k n = some r := by
  have hc := choose_le_252 n k h10 hkn
  have hn : n < W := by unfold W; omega
  have hov : Nat.choose n k < W := by unfold W; omega
  obtain ⟨t, ht1, ht2, ht3, ht4⟩ := to_subscript_k_spec n k r hn hk9 hov hr
  refine ⟨Nat.choose n k, t, BinomialCoefficient_exact n k h1 hn hk9 hov, ht4, ?_⟩
  have hmap : (t.map fun x : Nat => toInt32 (x : Int)) = t.map fun x : Nat => (x : Int) := by
    apply List.map_congr_left
    intro x hx
    have := (IncreasingFrom_bounds n t 0 ht2 x hx).2
    exact toInt32_natCast x (by omega)
  rw [hmap, to_natural_k_buffered_spec n k t h1 hn hk9 ht1 ht2 (by omega), ht3]
  congr 1
  omega

/-- C1. The general-`k` round trip is not defined, already at the witness `n = 10`, `k = 3`,
rank `0`: the peeling loop of `to_subscript` produces `(0, 1, 2)`, but `to_natural_k` then
stores three values of `int_t` (`3 * 4` bytes) in the `3` bytes obtained from `alloca(k)`;
had the buffer held them, the result would have been the rank `0`. Independently, at
`n = k = 10` the rank `0 < C(10,10)` passes the range check and the peeling loop reads
`BC.combinations[9][10]`, outside the table, so no combination is produced. -/
theorem general_round_trip_undefined :
    (BinomialCoefficient 10 3 = some 120 ∧
      to_subscript_k 120 10 3 (List.replicate 3 0) 0 = some (.ok [0, 1, 2]) ∧
      ¬ (3 * sizeof_int_t ≤ 3) ∧ to_natural_k [0, 1, 2] 3 10 = none ∧
      to_natural_k_buffered [0, 1, 2] 3 10 = some 0) ∧
    ((0 : Nat) < Nat.choose 10 10 ∧ BinomialCoefficient 10 10 = some 1 ∧
      to_subscript_k 1 10 10 (List.replicate 10 0) 0 = some (.fault Fault.undefined)) := by
  decide

/-- Decode undoes encode on a buffer that holds the `k` encoded values, while the sums fit
in an `int`: for every `n`, every `k ≠ 2` with `1 ≤ k ≤ n`, `k ≤ 9` and `C(n,k) ≤ 2 ^ 31`, and
every strictly increasing sequence `c` of `k` indices in `[0, n)`, the rank computed by lines
112-122 of `to_natural_k` is below `C(n,k)` and `to_subscript` applied to that rank emits
exactly `c`. -/
theorem decode_encode_buffered (n k : Nat) (c : List Nat) (hn : n < W) (hk2 : k ≠ 2)
    (hk1 : 1 ≤ k) (hkn : k ≤ n) (hk9 : k ≤ 9) (hb : Nat.choose n k ≤ 2 ^ 31)
    (hl : c.length = k) (hs : c.Pairwise (· < ·)) (hc : ∀ x ∈ c, x < n) :
    ∃ r, to_natural_k_buffered (c.map fun x : Nat => (x : Int)) k n = some r ∧
      r < Nat.choose n k ∧ to_subscript [(r : Int)] n k = some ([c], none) := by
  have h31 := two_pow_31_lt_W
  have hI : IncreasingFrom n 0 c :=
    IncreasingFrom_of_pairwise n c 0 hs (fun x hx => ⟨Nat.zero_le x, hc x hx⟩)
  have hpos : 0 < Nat.choose n k := Nat.choose_pos hkn
  have hlt := dualSum_lt n c k 0 hl hI
  rw [Nat.sub_zero] at hlt
  have hr : Nat.choose n k - 1 - dualSum n k c < Nat.choose n k := by omega
  refine ⟨Nat.choose n k - 1 - dualSum n k c,
    to_natural_k_buffered_spec n k c (by omega) hn hk9 hl hI hb, hr, ?_⟩
  obtain ⟨t, ht1, ht2, ht3, ht4⟩ :=
    to_subscript_k_spec n k (Nat.choose n k - 1 - dualSum n k c) hn hk9 (by omega) hr
  have htc : t = c :=
    dualSum_injective n t c k 0 ht1 hl ht2 hI (by omega)
  subst htc
  rw [to_subscript_general _ n k _ hk2
    (BinomialCoefficient_exact n k (by omega) hn hk9 (by omega))]
  exact for_each_single_ok _ _ _ _ ht4

end Discrete

namespace Discrete

/-! ## `to_natural_k` beyond the range of `int` -/

theorem choose_2400_3 : Nat.choose 2400 3 = 2301120800 := by
  rw [Nat.choose_eq_descFactorial_div_factorial]
  decide

theorem choose_2399_3 : Nat.choose 2399 3 = 2298244399 := by
  rw [Nat.choose_eq_descFactorial_div_factorial]
  decide

theorem choose_2398_2 : Nat.choose 2398 2 = 2874003 := by
  rw [Nat.choose_eq_descFactorial_div_factorial]
  decide

theorem BinomialCoefficient_value (n k v : Nat) (h1 : 1 ≤ n) (hn : n < W) (hk : k ≤ 9)
    (hv : Nat.choose n k = v) (hlt : v < W) : BinomialCoefficient n k = some v := by
  rw [BinomialCoefficient_eq_choose n k h1 hn (Or.inl hk), hv, Nat.mod_eq_of_lt hlt]

theorem to_natural_k_buffered_eval (c : List Int) (k n N : Nat) (encoded : List Int) (sum : Int)
    (hN : BinomialCoefficient n k = some N)
    (he : to_natural_k_encode n c k = some encoded)
    (hs : accumulate_int encoded 0 = some sum) :
    to_natural_k_buffered c k n = some (subW (subW N 1) (toSizeT sum)) := by
  unfold to_natural_k_buffered
  rw [hN, he]
  simp only []
  rw [hs]

theorem to_natural_k_encode_2400 :
    to_natural_k_encode 2400 [0, 1, 2] 3 = some [-1996722897, 2874003, 2397] := by
  have e0 : subW (subW 2400 1) (toSizeT 0) = 2399 := by decide
  have e1 : subW (subW 2400 1) (toSizeT 1) = 2398 := by decide
  have e2 : subW (subW 2400 1) (toSizeT 2) = 2397 := by decide
  have i2 : subW 3 1 = 2 := by decide
  have i1 : subW 2 1 = 1 := by decide
  have i0 : subW 1 1 = 0 := by decide
  have b0 : BinomialCoefficient (subW (subW 2400 1) (toSizeT 0)) 3 = some 2298244399 := by
    rw [e0]
    exact BinomialCoefficient_value 2399 3 _ (by decide) (by decide) (by decide)
      choose_2399_3 (by decide)
  have b1 : BinomialCoefficient (subW (subW 2400 1) (toSizeT 1)) (subW 3 1) = some 2874003 := by
    rw [e1, i2]
    exact BinomialCoefficient_value 2398 2 _ (by decide) (by decide) (by decide)
      choose_2398_2 (by decide)
  have b2 : BinomialCoefficient (subW (subW 2400 1) (toSizeT 2)) (subW (subW 3 1) 1) =
      some 2397 := by
    rw [e2, i2, i1]
    exact BinomialCoefficient_value 2397 1 _ (by decide) (by decide) (by decide)
      (Nat.choose_one_right 2397) (by decide)
  have r3 : to_natural_k_encode 2400 [] (subW (subW (subW 3 1) 1) 1) = some [] := rfl
  have r2 := to_natural_k_encode_cons 2400 2 [] _ _ _ b2 r3
  have r1 := to_natural_k_encode_cons 2400 1 [2] _ _ _ b1 r2
  have r0 := to_natural_k_encode_cons 2400 0 [1, 2] _ _ _ b0 r1
  rw [r0]
  decide

/-- At `n = 2400`, `k = 3`, `c = (0, 1, 2)` the first summand `C(2399, 3) = 2298244399` does
not fit in the `int` it is stored in, the `int` sum comes out as `-1993846497`, and lines
112-122 of `to_natural_k` return `2 ^ 32`. -/
theorem to_natural_k_buffered_2400 :
    to_natural_k_buffered [0, 1, 2] 3 2400 = some 4294967296 := by
  have hN : BinomialCoefficient 2400 3 = some 2301120800 :=
    BinomialCoefficient_value 2400 3 _ (by decide) (by decide) (by decide)
      choose_2400_3 (by decide)
  have hs : accumulate_int [-1996722897, 2874003, 2397] 0 = some (-1993846497) := by decide
  rw [to_natural_k_buffered_eval _ 3 2400 _ _ _ hN to_natural_k_encode_2400 hs]
  decide

/-- C3. Encoding is not defined: for `n = 10`, `k = 3` and the increasing sequence
`c = (7, 8, 9)`, `to_natural_k` stores three values of `int_t` (`3 * 4` bytes) in the `3`
bytes obtained from `alloca(k)`; had the buffer held them, the result would have been the
rank `119`, which `to_subscript` decodes to `c`. Independently, the values are narrowed to
`int`: at `n = 2400`, `k = 3`, `c = (0, 1, 2)` (combinadic rank `0`) even a buffer of the
right size yields `2 ^ 32`, which is not below `C(2400, 3) = 2301120800`. -/
theorem decode_encode_undefined :
    (¬ (3 * sizeof_int_t ≤ 3) ∧ to_natural_k [7, 8, 9] 3 10 = none ∧
      to_natural_k_buffered [7, 8, 9] 3 10 = some 119 ∧
      to_subscript [119] 10 3 = some ([[7, 8, 9]], none)) ∧
    (to_natural_k [0, 1, 2] 3 2400 = none ∧
      to_natural_k_buffered [0, 1, 2] 3 2400 = some 4294967296 ∧
      Nat.choose 2400 3 = 2301120800 ∧ ¬ (4294967296 < Nat.choose 2400 3)) := by
  refine ⟨by decide, to_natural_k_undefined _ 3 2400 (by decide), to_natural_k_buffered_2400,
    choose_2400_3, by rw [choose_2400_3]; decide⟩

end Discrete

namespace Discrete

/-! ## The closed forms for `k = 2` -/

theorem mul_succ_even (i : Nat) : (i * (i + 1)) % 2 = 0 :=
  Nat.even_iff.1 (Nat.even_mul_succ_self i)

theorem mul_pred_even (b : Nat) : (b * (b - 1)) % 2 = 0 := by
  rcases Nat.eq_zero_or_pos b with h | h
  · subst h; rfl
  · obtain ⟨c, rfl⟩ : ∃ c, b = c + 1 := ⟨b - 1, by omega⟩
    rw [Nat.add_sub_cancel, Nat.mul_comm]
    exact mul_succ_even c

theorem W_eq : W = 18446744073709551616 := rfl

/-- The 64-bit evaluation of `A - B/2 + j - i - 1` when no step wraps. -/
theorem branch_no_wrap (A B i j : Nat) (hA : A < 2 ^ 62) (hB : B ≤ A) (hj : j < 2 ^ 32)
    (hij : i < j) :
    subW (subW ((subW (A % W) ((B % W) / 2) + j) % W) i) 1 = A - B / 2 + j - i - 1 := by
  have hW := W_eq
  have mA : A % W = A := Nat.mod_eq_of_lt (by omega)
  have mB : B % W = B := Nat.mod_eq_of_lt (by omega)
  have s1 : subW A (B / 2) = A - B / 2 := subW_eq _ _ (by omega) (by omega)
  have m3 : (A - B / 2 + j) % W = A - B / 2 + j := Nat.mod_eq_of_lt (by omega)
  have s2 : subW (A - B / 2 + j) i = A - B / 2 + j - i := subW_eq _ _ (by omega) (by omega)
  have s3 : subW (A - B / 2 + j - i) 1 = A - B / 2 + j - i - 1 :=
    subW_eq _ _ (by omega) (by omega)
  rw [mA, mB, s1, m3, s2, s3]

theorem branch_arith (P Q i d : Nat) (hev : (P + i) % 2 = 0) (hPi : i ≤ P) (hd : 1 ≤ d) :
    2 * (P + Q - (P + i) / 2 + (i + d) - i - 1) + i + 2 = P + 2 * Q + 2 * d := by
  omega

/-- Without overflow the branch of `to_natural_2` is the integer
`n*i - i*(i+1)/2 + j - i - 1`; written with `n = i + b`, `j = i + d`. -/
theorem to_natural_2_branch_val (i b d : Nat) (hd1 : 1 ≤ d) (hdb : d < b)
    (hn : i + b ≤ 2 ^ 31) :
    2 * to_natural_2_branch i (i + d) (i + b) + i + 2 = i * i + 2 * (b * i) + 2 * d := by
  have e1 : (i + b) * i = i * i + b * i := by ring
  have e2 : i * (i + 1) = i * i + i := by ring
  have hev : (i * i + i) % 2 = 0 := by rw [← e2]; exact mul_succ_even i
  have hPi : i ≤ i * i := Nat.le_mul_self i
  have hA : (i + b) * i < 2 ^ 62 := by
    have h1 : (i + b) * i ≤ 2 ^ 31 * (2 ^ 31 - 1) := Nat.mul_le_mul hn (by omega)
    have h2 : 2 ^ 31 * (2 ^ 31 - 1) < 2 ^ 62 := by norm_num
    exact lt_of_le_of_lt h1 h2
  have hB : i * (i + 1) ≤ (i + b) * i := by
    rw [Nat.mul_comm (i + b) i]
    exact Nat.mul_le_mul_left i (by omega)
  unfold to_natural_2_branch
  rw [branch_no_wrap ((i + b) * i) (i * (i + 1)) i (i + d) hA hB (by omega) (by omega), e1, e2]
  exact branch_arith (i * i) (b * i) i d hev hPi hd1

theorem to_natural_2_lt (i j n : Nat) (h : i < j) :
    to_natural_2 i j n = to_natural_2_branch i j n := by
  unfold to_natural_2
  rw [if_pos h]

/-- The 64-bit evaluation of `-8*x + 4*n*(n-1) - 7` when the true value is in range. -/
theorem radicand_no_wrap (x n : Nat) (h1 : 1 ≤ n) (hn : n ≤ 2 ^ 31)
    (hx : 8 * x + 7 ≤ 4 * (n * (n - 1))) :
    to_subscript_2_radicand x n = 4 * (n * (n - 1)) - 8 * x - 7 := by
  have hW := W_eq
  have hM : n * (n - 1) ≤ 2 ^ 31 * (2 ^ 31 - 1) := Nat.mul_le_mul hn (by omega)
  have hM2 : 2 ^ 31 * (2 ^ 31 - 1) = 4611686016279904256 := by norm_num
  have es1 : subW n 1 = n - 1 := subW_eq _ _ h1 (by omega)
  have a1 : (4 * n) % W = 4 * n := Nat.mod_eq_of_lt (by omega)
  have a2 : 4 * n * (n - 1) = 4 * (n * (n - 1)) := by ring
  have a0 : W - 8 + 8 = W := by decide
  have a3 : (W - 8) * x + 8 * x = W * x := by rw [← Nat.add_mul, a0]
  have a4 : (W - 8) * x + 4 * (n * (n - 1)) = (4 * (n * (n - 1)) - 8 * x) + W * x := by
    omega
  have a5 : (4 * (n * (n - 1)) - 8 * x) % W = 4 * (n * (n - 1)) - 8 * x :=
    Nat.mod_eq_of_lt (by omega)
  unfold to_subscript_2_radicand
  rw [es1, a1, a2, Nat.mod_add_mod, Nat.add_mod_mod, a4, Nat.add_mul_mod_self_left, a5]
  exact subW_eq _ _ (by omega) (by omega)

theorem radicand_arith (x i b d P Q R M : Nat) (hM : M = P + 2 * Q + R - (i + b))
    (hx : 2 * x + i + 2 = P + 2 * Q + 2 * d) (hR : 3 * b ≤ R + 2) (hdb : d < b) :
    8 * x + 7 ≤ 4 * M ∧ 4 * M - 8 * x - 7 = 4 * R + 1 - 4 * b - 8 * d := by
  omega

theorem sqrt_between (D u : Nat) (h1 : u * u ≤ D) (h2 : D < (u + 2) * (u + 2)) :
    u ≤ Nat.sqrt D ∧ Nat.sqrt D ≤ u + 1 := by
  refine ⟨Nat.le_sqrt.2 h1, ?_⟩
  have : Nat.sqrt D < u + 2 := Nat.sqrt_lt.2 h2
  omega

/-- The term `floor (sqrt D / 2 - 1/2)` for `D = (2b-1)^2 - 8d` with `1 ≤ d < b`. -/
theorem sqrt_term (b d : Nat) (hd1 : 1 ≤ d) (hdb : d < b) :
    (((Nat.sqrt (4 * (b * b) + 1 - 4 * b - 8 * d) : Nat) : Int) - 1) / 2 =
      ((b - 2 : Nat) : Int) := by
  obtain ⟨c, rfl⟩ : ∃ c, b = c + 2 := ⟨b - 2, by omega⟩
  have hR : (c + 2) * (c + 2) = c * c + 4 * c + 4 := by ring
  have hu : (2 * c + 1) * (2 * c + 1) = 4 * (c * c) + 4 * c + 1 := by ring
  have hu2 : (2 * c + 1 + 2) * (2 * c + 1 + 2) = 4 * (c * c) + 12 * c + 9 := by ring
  have hs := sqrt_between (4 * ((c + 2) * (c + 2)) + 1 - 4 * (c + 2) - 8 * d) (2 * c + 1)
    (by rw [hR, hu]; omega) (by rw [hR, hu2]; omega)
  generalize Nat.sqrt (4 * ((c + 2) * (c + 2)) + 1 - 4 * (c + 2) - 8 * d) = s at hs
  omega

/-- The 64-bit evaluation of `x + i + 1 - n*(n-1)/2 + (n-i)*((n-i)-1)/2`. -/
theorem second_index_no_wrap (x i j Cn Cb : Nat) (hx : x + i + 1 < W) (hj : j < W)
    (hCn : Cn < W) (hCb : Cb < W) (hen : Cn % 2 = 0) (heb : Cb % 2 = 0)
    (h : 2 * (x + i + 1) + Cb = Cn + 2 * j) :
    (subW ((x + i + 1) % W) ((Cn % W) / 2) + ((Cb % W) / 2)) % W = j := by
  have m1 : (x + i + 1) % W = x + i + 1 := Nat.mod_eq_of_lt hx
  have m2 : Cn % W = Cn := Nat.mod_eq_of_lt hCn
  have m3 : Cb % W = Cb := Nat.mod_eq_of_lt hCb
  have e : W + (x + i + 1) - Cn / 2 + Cb / 2 = j + W := by omega
  rw [m1, m2, m3]
  unfold subW
  rw [Nat.mod_add_mod, e, Nat.add_mod_right]
  exact Nat.mod_eq_of_lt hj

theorem second_index_arith (x i b d P Q R : Nat)
    (hx : 2 * x + i + 2 = P + 2 * Q + 2 * d) (hPi : i ≤ P) (hRb : b ≤ R) :
    2 * (x + i + 1) + (R - b) = (P + 2 * Q + R - (i + b)) + 2 * (i + d) := by
  omega

/-- The decoder `to_subscript_2` on a rank `x` that satisfies the defining equation of
`to_natural_2` for the pair `(i, i + d)` out of `n = i + b`. -/
theorem to_subscript_2_val (x i b d : Nat) (hd1 : 1 ≤ d) (hdb : d < b) (hn : i + b ≤ 2 ^ 31)
    (hx : 2 * x + i + 2 = i * i + 2 * (b * i) + 2 * d) :
    to_subscript_2 x (i + b) = some (i, i + d) := by
  have hW := W_eq
  have hPi : i ≤ i * i := Nat.le_mul_self i
  have hRb : b ≤ b * b := Nat.le_mul_self b
  have hR3 : 3 * b ≤ b * b + 2 := by
    obtain ⟨c, rfl⟩ : ∃ c, b = c + 2 := ⟨b - 2, by omega⟩
    have : (c + 2) * (c + 2) = c * c + 4 * c + 4 := by ring
    have : c ≤ c * c := Nat.le_mul_self c
    omega
  have hnn : (i + b) * (i + b) = i * i + 2 * (b * i) + b * b := by ring
  have hnn2 : (i + b) * (i + b) ≤ 2 ^ 31 * 2 ^ 31 := Nat.mul_le_mul hn hn
  have h62 : 2 ^ 31 * 2 ^ 31 = 4611686018427387904 := by norm_num
  have en1 : (i + b) * (i + b - 1) = i * i + 2 * (b * i) + b * b - (i + b) := by
    rw [Nat.mul_sub_one, hnn]
  have eb1 : b * (b - 1) = b * b - b := Nat.mul_sub_one b b
  have evn := mul_pred_even (i + b)
  have evb := mul_pred_even b
  have es1 : subW (i + b) 1 = i + b - 1 := subW_eq _ _ (by omega) (by omega)
  have es2 : subW (i + b) 2 = i + b - 2 := subW_eq _ _ (by omega) (by omega)
  have e5 : subW (i + b) i = b := by
    rw [subW_eq _ _ (by omega) (by omega)]
    omega
  have e6 : subW b 1 = b - 1 := subW_eq _ _ (by omega) (by omega)
  have hra := radicand_arith x i b d (i * i) (b * i) (b * b) ((i + b) * (i + b - 1)) en1 hx
    hR3 hdb
  have hrad : to_subscript_2_radicand x (i + b) = 4 * (b * b) + 1 - 4 * b - 8 * d := by
    rw [radicand_no_wrap x (i + b) (by omega) hn hra.1]
    exact hra.2
  have hr : ((i + b - 2 : Nat) : Int) - ((b - 2 : Nat) : Int) = ((i : Nat) : Int) := by omega
  have hi0 : ¬ (((i : Nat) : Int) < 0 ∨ ((W : Nat) : Int) ≤ ((i : Nat) : Int)) := by omega
  have hsi := second_index_arith x i b d (i * i) (b * i) (b * b) hx hPi hRb
  have hj := second_index_no_wrap x i (i + d) ((i + b) * (i + b - 1)) (b * (b - 1))
    (by omega) (by omega) (by rw [en1]; omega) (by rw [eb1]; omega) evn evb
    (by rw [en1, eb1]; exact hsi)
  unfold to_subscript_2
  simp only []
  rw [hrad, sqrt_term b d hd1 hdb, es2, hr, if_neg hi0, Int.toNat_natCast, es1, e5, e6, hj]

/-- C2. The `k = 2` round trip holds while `4*n*(n-1)` fits in 64 bits: for every
`n ≤ 2 ^ 31` and all `i < j < n`, `to_subscript_2 (to_natural_2 (i, j, n), n) = (i, j)`,
with the exact square root and the remaining arithmetic in 64-bit unsigned integers. -/
theorem to_subscript_2_to_natural_2 (n i j : Nat) (hn : n ≤ 2 ^ 31) (hij : i < j)
    (hjn : j < n) : to_subscript_2 (to_natural_2 i j n) n = some (i, j) := by
  obtain ⟨d, rfl⟩ : ∃ d, j = i + d := ⟨j - i, by omega⟩
  obtain ⟨b, rfl⟩ : ∃ b, n = i + b := ⟨n - i, by omega⟩
  have hv := to_natural_2_branch_val i b d (by omega) (by omega) hn
  rw [to_natural_2_lt _ _ _ hij]
  exact to_subscript_2_val _ i b d (by omega) (by omega) hn hv

theorem to_subscript_2_to_natural_2_witness :
    to_natural_2 0 1 10 = 0 ∧ to_natural_2 8 9 10 = 44 ∧
      to_subscript_2 (to_natural_2 0 1 10) 10 = some (0, 1) ∧
      to_subscript_2 (to_natural_2 8 9 10) 10 = some (8, 9) :=
  ⟨by decide, by decide,
    to_subscript_2_to_natural_2 10 0 1 (by decide) (by decide) (by decide),
    to_subscript_2_to_natural_2 10 8 9 (by decide) (by decide) (by decide)⟩

theorem sqrt_8589934585 : Nat.sqrt 8589934585 = 92681 :=
  (Nat.eq_sqrt.2 ⟨by norm_num, by norm_num⟩).symm

theorem to_subscript_2_large_n :
    to_subscript_2 0 2147483649 = some (2147437307, 16140901066643320459) := by
  have hr : to_subscript_2_radicand 0 2147483649 = 8589934585 := by decide
  unfold to_subscript_2
  rw [hr, sqrt_8589934585]
  decide

/-- C2, as stated for every `n`, fails at `n = 2 ^ 31 + 1`, `(i, j) = (0, 1)`: the rank is
`0`, but `4*n*(n-1)` wraps to `2 ^ 33` in 64 bits, the radicand is `2 ^ 33 - 7` and
`to_subscript_2` returns `(2147437307, 16140901066643320459)` instead of `(0, 1)`. -/
theorem to_subscript_2_to_natural_2_overflow :
    to_natural_2 0 1 2147483649 = 0 ∧
      to_subscript_2 (to_natural_2 0 1 2147483649) 2147483649 ≠ some (0, 1) := by
  have h0 : to_natural_2 0 1 2147483649 = 0 := by decide
  refine ⟨h0, ?_⟩
  rw [h0, to_subscript_2_large_n]
  decide

end Discrete

namespace Discrete

/-! ## Unpairing after pairing -/

/-- C16. The precomputed table is Pascal's triangle: for every `n ≤ 10` and `k ≤ 9` the entry
`BC.combinations[n][k]` is `bc_recursive< n, k >()`, computed in 64-bit unsigned arithmetic,
it equals the binomial coefficient `C(n, k)` of Pascal's recurrence, and it is `0` whenever
`k > n`. -/
theorem BC_combinations_pascal (n k : Nat) (hn : n ≤ 10) (hk : k ≤ 9) :
    BC_get n k = some (bc_recursive n k) ∧ bc_recursive n k = Nat.choose n k ∧
      (n < k → bc_recursive n k = 0) := by
  interval_cases n <;> interval_cases k <;> decide

theorem BC_combinations_pascal_witness :
    BC_get 5 2 = some (bc_recursive 5 2) ∧ bc_recursive 5 2 = Nat.choose 5 2 ∧
      (5 < 2 → bc_recursive 5 2 = 0) :=
  BC_combinations_pascal 5 2 (by decide) (by decide)

/-! ## Order tolerance of `to_natural_2` -/

/-- C17. The `k = 2` encoder is order-tolerant: for every `n` and all `i ≠ j` below `n`,
`to_natural_2 (i, j, n) = to_natural_2 (j, i, n)`. -/
theorem to_natural_2_order_tolerant (n i j : Nat) (hij : i ≠ j) (_hi : i < n) (_hj : j < n) :
    to_natural_2 i j n = to_natural_2 j i n := by
  unfold to_natural_2
  rcases Nat.lt_or_gt_of_ne hij with h | h
  · rw [if_pos h, if_neg (by omega)]
  · rw [if_neg (by omega), if_pos h]

theorem to_natural_2_order_tolerant_witness : to_natural_2 3 7 10 = to_natural_2 7 3 10 :=
  to_natural_2_order_tolerant 10 3 7 (by decide) (by decide) (by decide)

/-! ## The asserted precondition and the bounds of the table -/

/-- For `1 ≤ n ≤ 8` the assertion `n >= k - 1` does keep the column index below
`max_choose`. -/
theorem assert_ok_in_bounds (n k : Nat) (hn : n ≤ 8) (hk : k < W)
    (h : assert_ok n k = true) : k < max_choose := by
  unfold assert_ok at h
  have h1 : subW k 1 ≤ n := of_decide_eq_true h
  have hW := W_eq
  unfold max_choose
  rcases Nat.eq_zero_or_pos k with h0 | h0
  · omega
  · rw [subW_eq k 1 h0 hk] at h1
    omega

/-- C20. The asserted precondition does not keep the lookup inside the table: for `n = 9`
and `k = 10` the assertion `n >= k - 1` holds, but `k` is not below `max_choose = 10`, so
`BC.combinations[9][10]` is outside the second dimension of the table. -/
theorem assert_ok_out_of_bounds :
    assert_ok 9 10 = true ∧ ¬ (10 < max_choose) ∧ BC_get 9 10 = none ∧
      BinomialCoefficient 9 10 = none := by
  decide

end Discrete

namespace Discrete

/-! ## The `k = 2` closed forms and the general encoding -/

theorem two_mul_choose_two (n : Nat) : 2 * Nat.choose n 2 = n * (n - 1) := by
  rw [Nat.choose_two_right]
  have h := mul_pred_even n
  omega

/-- The products behind `C(i + b, 2)` and `C(b - 1, 2)`. -/
theorem choose_pair_facts (i b : Nat) (hb : 2 ≤ b) :
    2 * Nat.choose (i + b) 2 + (i + b) = i * i + 2 * (b * i) + b * b ∧
      2 * Nat.choose (b - 1) 2 + 3 * b = b * b + 2 := by
  obtain ⟨c, rfl⟩ : ∃ c, b = c + 2 := ⟨b - 2, by omega⟩
  have e1 : i + (c + 2) - 1 = i + c + 1 := by omega
  have e2 : c + 2 - 1 = c + 1 := by omega
  have e3 : c + 1 - 1 = c := by omega
  rw [two_mul_choose_two, two_mul_choose_two, e1, e2, e3]
  constructor <;> ring

theorem pair_rank_arith (x i b d P Q R Cn Cb : Nat) (hCn : 2 * Cn + (i + b) = P + 2 * Q + R)
    (hCb : 2 * Cb + 3 * b = R + 2) (hdb : d < b) :
    (2 * x + i + 2 = P + 2 * Q + 2 * d) ↔ (x + 1 + (Cb + (b - 1 - d)) = Cn) := by
  omega

theorem dualSum_pair (n a c : Nat) :
    dualSum n 2 [a, c] = Nat.choose (n - 1 - a) 2 + (n - 1 - c) := by
  show Nat.choose (n - 1 - a) 2 + (Nat.choose (n - 1 - c) 1 + 0) = _
  rw [Nat.choose_one_right, Nat.add_zero]

/-- The defining equation of `to_natural_2` for the pair `(i, i + d)` out of `i + b` says
that the rank is `C(n, 2) - 1` minus the dual sum of the pair. -/
theorem pair_rank_iff (x i b d : Nat) (hd1 : 1 ≤ d) (hdb : d < b) :
    (2 * x + i + 2 = i * i + 2 * (b * i) + 2 * d) ↔
      (x + 1 + dualSum (i + b) 2 [i, i + d] = Nat.choose (i + b) 2) := by
  have hf := choose_pair_facts i b (by omega)
  have e1 : i + b - 1 - i = b - 1 := by omega
  have e2 : i + b - 1 - (i + d) = b - 1 - d := by omega
  rw [dualSum_pair, e1, e2]
  exact pair_rank_arith x i b d (i * i) (b * i) (b * b) _ _ hf.1 hf.2 hdb

theorem le_of_choose_two_le (n : Nat) (h : Nat.choose n 2 ≤ 2 ^ 31) : n ≤ 2 ^ 31 := by
  have h2 := two_mul_choose_two n
  by_cases h3 : n ≤ 3
  · omega
  · have : n * 2 ≤ n * (n - 1) := Nat.mul_le_mul_left n (by omega)
    omega

/-- On a buffer that holds the two encoded values and while the sums fit in an `int`, the
general encoder agrees with the `k = 2` fast path: for every `n` with `C(n, 2) ≤ 2 ^ 31` and
all `i < j < n`, lines 112-122 of `to_natural_k` applied to the sequence `(i, j)` with `k = 2`
return `to_natural_2 (i, j, n)`, which is `C(n,2) - 1 - C(n-1-i, 2) - C(n-1-j, 1)`. -/
theorem to_natural_2_eq_to_natural_k_buffered (n i j : Nat) (hij : i < j) (hjn : j < n)
    (hb : Nat.choose n 2 ≤ 2 ^ 31) :
    to_natural_k_buffered ([i, j].map fun x : Nat => (x : Int)) 2 n = some (to_natural_2 i j n) ∧
      to_natural_2 i j n =
        Nat.choose n 2 - 1 - Nat.choose (n - 1 - i) 2 - Nat.choose (n - 1 - j) 1 := by
  have hn31 := le_of_choose_two_le n hb
  have h31 := two_pow_31_lt_W
  obtain ⟨d, rfl⟩ : ∃ d, j = i + d := ⟨j - i, by omega⟩
  obtain ⟨b, rfl⟩ : ∃ b, n = i + b := ⟨n - i, by omega⟩
  have hv := to_natural_2_branch_val i b d (by omega) (by omega) hn31
  rw [← to_natural_2_lt i (i + d) (i + b) hij] at hv
  have hr := (pair_rank_iff _ i b d (by omega) (by omega)).1 hv
  have hI : IncreasingFrom (i + b) 0 [i, i + d] :=
    ⟨Nat.zero_le i, by omega, by omega, by omega, trivial⟩
  have hk := to_natural_k_buffered_spec (i + b) 2 [i, i + d] (by omega) (by omega) (by decide) rfl hI hb
  have hval : to_natural_2 i (i + d) (i + b) =
      Nat.choose (i + b) 2 - 1 - dualSum (i + b) 2 [i, i + d] := by omega
  refine ⟨by rw [hk, hval], ?_⟩
  rw [hval, dualSum_pair, Nat.choose_one_right]
  omega

theorem choose_65538_2 : Nat.choose 65538 2 = 2147581953 := by
  rw [Nat.choose_two_right]

theorem choose_65537_2 : Nat.choose 65537 2 = 2147516416 := by
  rw [Nat.choose_two_right]

theorem to_natural_k_encode_65538 :
    to_natural_k_encode 65538 [0, 1] 2 = some [-2147450880, 65536] := by
  have e0 : subW (subW 65538 1) (toSizeT 0) = 65537 := by decide
  have e1 : subW (subW 65538 1) (toSizeT 1) = 65536 := by decide
  have i1 : subW 2 1 = 1 := by decide
  have b0 : BinomialCoefficient (subW (subW 65538 1) (toSizeT 0)) 2 = some 2147516416 := by
    rw [e0]
    exact BinomialCoefficient_value 65537 2 _ (by decide) (by decide) (by decide)
      choose_65537_2 (by decide)
  have b1 : BinomialCoefficient (subW (subW 65538 1) (toSizeT 1)) (subW 2 1) = some 65536 := by
    rw [e1, i1]
    exact BinomialCoefficient_value 65536 1 _ (by decide) (by decide) (by decide)
      (Nat.choose_one_right 65536) (by decide)
  have r2 : to_natural_k_encode 65538 [] (subW (subW 2 1) 1) = some [] := rfl
  have r1 := to_natural_k_encode_cons 65538 1 [] _ _ _ b1 r2
  have r0 := to_natural_k_encode_cons 65538 0 [1] _ _ _ b0 r1
  rw [r0]
  decide

/-- At `n = 65538`, `(i, j) = (0, 1)` lines 112-122 of `to_natural_k` store
`C(65537, 2) = 2147516416` in an `int`, sum to `-2147385344` and return `2 ^ 32`. -/
theorem to_natural_k_buffered_65538 :
    to_natural_k_buffered [0, 1] 2 65538 = some 4294967296 := by
  have hN : BinomialCoefficient 65538 2 = some 2147581953 :=
    BinomialCoefficient_value 65538 2 _ (by decide) (by decide) (by decide)
      choose_65538_2 (by decide)
  have hs : accumulate_int [-2147450880, 65536] 0 = some (-2147385344) := by decide
  rw [to_natural_k_buffered_eval _ 2 65538 _ _ _ hN to_natural_k_encode_65538 hs]
  decide

/-- C18. The general encoder does not agree with the `k = 2` fast path. For `n = 10`,
`(i, j) = (3, 7)`, `to_natural_2` returns the rank `27`, while `to_natural_k` with `k = 2`
stores two values of `int_t` (`2 * 4` bytes) in the `2` bytes obtained from `alloca(k)` and
is undefined; had the buffer held them, the result would have been `27` as well.
Independently, the values are narrowed to `int`: at `n = 65538`, `(i, j) = (0, 1)`,
`to_natural_2` returns `0` and even a buffer of the right size yields `2 ^ 32`. -/
theorem to_natural_k_pair_undefined :
    (to_natural_2 3 7 10 = 27 ∧ ¬ (2 * sizeof_int_t ≤ 2) ∧ to_natural_k [3, 7] 2 10 = none ∧
      to_natural_k_buffered [3, 7] 2 10 = some 27) ∧
    (to_natural_2 0 1 65538 = 0 ∧ to_natural_k [0, 1] 2 65538 = none ∧
      to_natural_k_buffered [0, 1] 2 65538 = some 4294967296) := by
  exact ⟨by decide, by decide, to_natural_k_undefined _ 2 65538 (by decide),
    to_natural_k_buffered_65538⟩

end Discrete

namespace Discrete

/-! ## Decoding one rank, through either branch of `to_subscript` -/

theorem BinomialCoefficient_exact_of_pos (n k : Nat) (h1 : 1 ≤ n ∨ 1 ≤ k) (hn : n < W)
    (hk : k ≤ 9) (hov : Nat.choose n k < W) :
    BinomialCoefficient n k = some (Nat.choose n k) := by
  rcases Nat.eq_zero_or_pos n with h0 | h0
  · subst h0
    obtain ⟨j, rfl⟩ : ∃ j, k = j + 1 := ⟨k - 1, by omega⟩
    rw [BinomialCoefficient_zero, Nat.choose_zero_succ]
  · exact BinomialCoefficient_exact n k h0 hn hk hov

end Discrete

namespace Discrete

/-! ## The steps of the `for` loop -/

theorem for_loop_steps_zero (z cc pc : Nat) : for_loop_steps 0 z cc pc = some (.ok []) := by
  rw [for_loop_steps]

theorem for_loop_steps_none (j z cc pc : Nat)
    (h : while_loop z (j + 1) (W + 1) cc pc ((z + 1) % W) = none) :
    for_loop_steps (j + 1) z cc pc = none := by
  rw [for_loop_steps, h]

theorem for_loop_steps_fault (j z cc pc : Nat) (f : Fault)
    (h : while_loop z (j + 1) (W + 1) cc pc ((z + 1) % W) = some (.fault f)) :
    for_loop_steps (j + 1) z cc pc = some (.fault f) := by
  rw [for_loop_steps, h]

theorem for_loop_steps_ok_none (j z cc pc cc1 pc1 value : Nat)
    (h : while_loop z (j + 1) (W + 1) cc pc ((z + 1) % W) = some (.ok (cc1, pc1, value)))
    (h2 : for_loop_steps j (subW z value) cc1 pc1 = none) :
    for_loop_steps (j + 1) z cc pc = none := by
  rw [for_loop_steps, h]
  simp only []
  rw [h2]

theorem for_loop_steps_ok_fault (j z cc pc cc1 pc1 value : Nat) (f : Fault)
    (h : while_loop z (j + 1) (W + 1) cc pc ((z + 1) % W) = some (.ok (cc1, pc1, value)))
    (h2 : for_loop_steps j (subW z value) cc1 pc1 = some (.fault f)) :
    for_loop_steps (j + 1) z cc pc = some (.fault f) := by
  rw [for_loop_steps, h]
  simp only []
  rw [h2]

theorem for_loop_steps_ok_ok (j z cc pc cc1 pc1 value : Nat) (rest : List Step)
    (h : while_loop z (j + 1) (W + 1) cc pc ((z + 1) % W) = some (.ok (cc1, pc1, value)))
    (h2 : for_loop_steps j (subW z value) cc1 pc1 = some (.ok rest)) :
    for_loop_steps (j + 1) z cc pc =
      some (.ok (⟨j + 1, z, cc, pc, cc1, value⟩ :: rest)) := by
  rw [for_loop_steps, h]
  simp only []
  rw [h2]

theorem for_loop_none (n k j z cc pc : Nat) (combination : List Nat)
    (h : while_loop z (j + 1) (W + 1) cc pc ((z + 1) % W) = none) :
    for_loop n k (j + 1) z cc pc combination = none := by
  rw [for_loop, h]

theorem for_loop_fault (n k j z cc pc : Nat) (combination : List Nat) (f : Fault)
    (h : while_loop z (j + 1) (W + 1) cc pc ((z + 1) % W) = some (.fault f)) :
    for_loop n k (j + 1) z cc pc combination = some (.fault f) := by
  rw [for_loop, h]

theorem index_eq (k j : Nat) (hk : k < W) (hj : j + 1 ≤ k) :
    subW (subW ((k + 1) % W) (j + 1)) 1 = k - (j + 1) := by
  unfold subW
  rw [W_eq] at *
  omega

/-- The buffer written by `for_loop` is the old buffer with its last `j` slots replaced by
the digits `(n-1) - cc` of the recorded steps; the two loops fail together. -/
theorem for_loop_of_steps (n k : Nat) (hk : k < W) :
    ∀ j z cc pc combination, combination.length = k → j ≤ k →
      (for_loop_steps j z cc pc = none → for_loop n k j z cc pc combination = none) ∧
      (∀ f, for_loop_steps j z cc pc = some (.fault f) →
        for_loop n k j z cc pc combination = some (.fault f)) ∧
      (∀ steps, for_loop_steps j z cc pc = some (.ok steps) →
        for_loop n k j z cc pc combination =
          some (.ok (combination.take (k - j) ++
            steps.map fun s => subW (subW n 1) s.cc))) := by
  intro j
  induction j with
  | zero =>
    intro z cc pc combination hl _
    rw [for_loop_steps_zero, for_loop_zero]
    refine ⟨fun h => (by cases h), fun f h => (by cases h), fun steps h => ?_⟩
    injection h with h
    injection h with h
    subst h
    simp only [List.map_nil, List.append_nil, Nat.sub_zero]
    rw [← hl, List.take_length]
  | succ j ih =>
    intro z cc pc combination hl hj
    cases hw : while_loop z (j + 1) (W + 1) cc pc ((z + 1) % W) with
    | none =>
      rw [for_loop_steps_none j z cc pc hw, for_loop_none n k j z cc pc _ hw]
      exact ⟨fun _ => rfl, fun f h => (by cases h), fun s h => (by cases h)⟩
    | some res =>
      cases res with
      | fault f =>
        rw [for_loop_steps_fault j z cc pc f hw, for_loop_fault n k j z cc pc _ f hw]
        refine ⟨fun h => (by cases h), fun g h => ?_, fun s h => (by cases h)⟩
        injection h with h
        injection h with h
        rw [h]
      | ok s =>
        obtain ⟨cc1, pc1, value⟩ := s
        rw [for_loop_succ n k j z cc pc cc1 pc1 value combination hw, index_eq k j hk hj]
        obtain ⟨i1, i2, i3⟩ := ih (subW z value) cc1 pc1
          (combination.set (k - (j + 1)) (subW (subW n 1) cc1))
          (by rw [List.length_set]; exact hl) (by omega)
        cases hs : for_loop_steps j (subW z value) cc1 pc1 with
        | none =>
          rw [for_loop_steps_ok_none j z cc pc cc1 pc1 value hw hs]
          exact ⟨fun _ => i1 hs, fun f h => (by cases h), fun s h => (by cases h)⟩
        | some res2 =>
          cases res2 with
          | fault f =>
            rw [for_loop_steps_ok_fault j z cc pc cc1 pc1 value f hw hs]
            refine ⟨fun h => (by cases h), fun g h => ?_, fun s h => (by cases h)⟩
            rw [i2 f hs]
            injection h with h
            injection h with h
            rw [h]
          | ok steps =>
            rw [for_loop_steps_ok_ok j z cc pc cc1 pc1 value steps hw hs]
            refine ⟨fun h => (by cases h), fun g h => (by cases h), fun s h => ?_⟩
            injection h with h
            injection h with h
            subst h
            rw [i3 steps hs]
            simp only [List.map_cons]
            have e : k - j = k - (j + 1) + 1 := by omega
            rw [e, take_set_succ _ _ _ (by omega), List.append_assoc]
            rfl

end Discrete

namespace Discrete

/-! ## The batch decoder and the decoding of single ranks -/

end Discrete

namespace Discrete

/-! ## The peeling loop never steps below zero -/

theorem BinomialCoefficient_below (j : Nat) (hj1 : 1 ≤ j) (hj : j ≤ 9) :
    BinomialCoefficient (j - 1) j = some 0 := by
  have hW := W_eq
  rw [BinomialCoefficient_digit (j - 1) j (by omega) hj1 hj,
    Nat.choose_eq_zero_of_lt (by omega)]
  rfl

/-- From the state `cc = pc = m`, `value = BinomialCoefficient(m, j)` with `m ≥ j - 1`, the
inner loop stops within `m` iterations at some `cc ≥ j - 1`. -/
theorem while_loop_floor (z j : Nat) (hj1 : 1 ≤ j) (hj : j ≤ 9) :
    ∀ m fuel v, m ≤ fuel → j - 1 ≤ m → m < W → BinomialCoefficient m j = some v →
      ∃ cc v1, j - 1 ≤ cc ∧ cc ≤ m ∧ BinomialCoefficient cc j = some v1 ∧ v1 ≤ z ∧
        while_loop z j fuel m m v = some (.ok (cc, cc, v1)) := by
  intro m
  induction m with
  | zero =>
    intro fuel v _ hm _ hv
    have hv0 : v = 0 := by
      rw [BinomialCoefficient_zero] at hv
      injection hv with e
      exact e.symm
    subst hv0
    exact ⟨0, 0, hm, le_refl 0, hv, Nat.zero_le z, while_loop_stop z j fuel 0 0 0 (by omega)⟩
  | succ m ih =>
    intro fuel v hf hm hW hv
    by_cases h : v > z
    · have hjm : j - 1 ≤ m := by
        by_contra hc
        have e : m + 1 = j - 1 := by omega
        rw [e, BinomialCoefficient_below j hj1 hj] at hv
        injection hv with e2
        omega
      obtain ⟨f, rfl⟩ : ∃ f, fuel = f + 1 := ⟨fuel - 1, by omega⟩
      have e : subW (m + 1) 1 = m := by rw [subW_eq _ _ (by omega) hW]; rfl
      obtain ⟨v1, hv1⟩ := BinomialCoefficient_defined m j (by omega) hj
      rw [while_loop_iter z j f (m + 1) (m + 1) v v1 h (by rw [e]; exact hv1), e]
      obtain ⟨cc, v2, a1, a2, a3, a4, a5⟩ := ih f v1 (by omega) hjm (by omega) hv1
      exact ⟨cc, v2, a1, by omega, a3, a4, a5⟩
    · exact ⟨m + 1, v, hm, le_refl _, hv, by omega,
        while_loop_stop z j fuel (m + 1) (m + 1) v h⟩

/-- More iterations than needed do not change the result of the inner loop. -/
theorem while_loop_fuel (z j : Nat) :
    ∀ f f1 cc pc v r, f ≤ f1 → while_loop z j f cc pc v = some r →
      while_loop z j f1 cc pc v = some r := by
  intro f
  induction f with
  | zero =>
    intro f1 cc pc v r _ h
    rw [while_loop_zero] at h
    by_cases hv : v > z
    · rw [if_pos hv] at h
      cases h
    · rw [if_neg hv] at h
      rw [while_loop_stop z j f1 cc pc v hv]
      exact h
  | succ f ih =>
    intro f1 cc pc v r hf h
    obtain ⟨f2, rfl⟩ : ∃ f2, f1 = f2 + 1 := ⟨f1 - 1, by omega⟩
    rw [while_loop_succ] at h ⊢
    by_cases hv : v > z
    · rw [if_pos hv] at h ⊢
      cases hB : BinomialCoefficient (subW pc 1) j with
      | none =>
        rw [hB] at h
        exact h
      | some v1 =>
        rw [hB] at h
        exact ih f2 _ _ v1 r (by omega) h
    · rw [if_neg hv] at h ⊢
      exact h

/-- One run of the inner loop, entered with `pc ≥ j`: it stops at some `cc` with
`j - 1 ≤ cc < pc` after at most `pc` iterations, so that `pc - 1` is never computed at
`pc = 0`. -/
theorem while_loop_entry (z j cc0 pc fuel : Nat) (hj1 : 1 ≤ j) (hj : j ≤ 9) (hpc : j ≤ pc)
    (hW : pc < W) (hz : z + 1 < W) (hf : pc ≤ fuel) :
    ∃ cc v, j - 1 ≤ cc ∧ cc < pc ∧ BinomialCoefficient cc j = some v ∧ v ≤ z ∧
      while_loop z j fuel cc0 pc ((z + 1) % W) = some (.ok (cc, cc, v)) := by
  obtain ⟨m, rfl⟩ : ∃ m, pc = m + 1 := ⟨pc - 1, by omega⟩
  obtain ⟨f, rfl⟩ : ∃ f, fuel = f + 1 := ⟨fuel - 1, by omega⟩
  have e : subW (m + 1) 1 = m := by rw [subW_eq _ _ (by omega) hW]; rfl
  have hz1 : (z + 1) % W = z + 1 := Nat.mod_eq_of_lt hz
  obtain ⟨v1, hv1⟩ := BinomialCoefficient_defined m j (by omega) hj
  rw [hz1, while_loop_iter z j f cc0 (m + 1) (z + 1) v1 (by omega) (by rw [e]; exact hv1), e]
  obtain ⟨cc, v2, a1, a2, a3, a4, a5⟩ :=
    while_loop_floor z j hj1 hj m f v1 (by omega) (by omega) (by omega) hv1
  exact ⟨cc, v2, a1, by omega, a3, a4, a5⟩

/-- Every step of the `for` loop entered with `pc ≥ j`: the inner loop ends within `pc`
iterations, and the chosen `cc` has `j - 1 ≤ cc < pc` and
`BinomialCoefficient(cc, j) ≤ z`. -/
theorem for_loop_steps_total :
    ∀ j z cc0 pc, j ≤ 9 → j ≤ pc → pc < W → z + 1 < W →
      ∃ steps, for_loop_steps j z cc0 pc = some (.ok steps) ∧ steps.length = j ∧
        ∀ s ∈ steps, 1 ≤ s.pc ∧
          while_loop s.z s.j s.pc s.cc_in s.pc ((s.z + 1) % W) =
            some (.ok (s.cc, s.cc, s.value)) ∧
          s.j - 1 ≤ s.cc ∧ s.cc < s.pc ∧
          BinomialCoefficient s.cc s.j = some s.value ∧ s.value ≤ s.z := by
  intro j
  induction j with
  | zero =>
    intro z cc0 pc _ _ _ _
    exact ⟨[], for_loop_steps_zero z cc0 pc, rfl, fun s hs => by cases hs⟩
  | succ j ih =>
    intro z cc0 pc hj hpc hW hz
    obtain ⟨cc', v', a1, a2, a3, a4, b5⟩ :=
      while_loop_entry z (j + 1) cc0 pc pc (by omega) hj hpc hW hz (le_refl pc)
    have a5 := while_loop_fuel z (j + 1) pc (W + 1) cc0 pc ((z + 1) % W) _ (by omega) b5
    have ez : subW z v' = z - v' := subW_eq _ _ a4 (by omega)
    obtain ⟨rest, r1, r2, r3⟩ := ih (subW z v') cc' cc' (by omega) (by omega) (by omega)
      (by rw [ez]; omega)
    refine ⟨_, for_loop_steps_ok_ok j z cc0 pc cc' cc' v' rest a5 r1, by simp [r2], ?_⟩
    intro s hs
    rcases List.mem_cons.1 hs with rfl | hs
    · have hp1 : 1 ≤ pc := by omega
      exact ⟨hp1, b5, a1, a2, a3, a4⟩
    · exact r3 s hs

/-- C19. The peeling loop is total on valid input: for every `n`, every `k` with
`1 ≤ k ≤ n` and `k ≤ 9`, and every rank `r` below `N = BinomialCoefficient(n, k)` (which is
`C(n,k)` whenever that fits in a `size_t`), the `for` loop runs its `k` steps and returns
the combination; in each step the inner `while` loop ends within `pc` iterations, so
`pc ≥ 1` whenever `cc = pc - 1` is computed, and at the end of step `j` the chosen `cc`
satisfies `cc ≥ j - 1` and `BinomialCoefficient(cc, j) ≤ z`. -/
theorem peeling_loop_total (n k r N : Nat) (hn : n < W) (hk1 : 1 ≤ k) (hkn : k ≤ n)
    (hk9 : k ≤ 9) (hN : BinomialCoefficient n k = some N) (hr : r < N) :
    ∃ steps, for_loop_steps k (subW (subW N 1) r) 0 n = some (.ok steps) ∧
      steps.length = k ∧
      to_subscript_k N n k (List.replicate k 0) (r : Int) =
        some (.ok (steps.map fun s => subW (subW n 1) s.cc)) ∧
      ∀ s ∈ steps, 1 ≤ s.pc ∧
        while_loop s.z s.j s.pc s.cc_in s.pc ((s.z + 1) % W) =
          some (.ok (s.cc, s.cc, s.value)) ∧
        s.j - 1 ≤ s.cc ∧ s.cc < s.pc ∧
        BinomialCoefficient s.cc s.j = some s.value ∧ s.value ≤ s.z := by
  have hW := W_eq
  have hNW : N < W := by
    rw [BinomialCoefficient_eq_choose n k (by omega) hn (Or.inl hk9)] at hN
    injection hN with hN
    rw [← hN]
    exact Nat.mod_lt _ W_pos
  have ez : subW (subW N 1) r = N - 1 - r := by
    rw [subW_eq N 1 (by omega) hNW, subW_eq _ _ (by omega) (by omega)]
  obtain ⟨steps, s1, s2, s3⟩ :=
    for_loop_steps_total k (subW (subW N 1) r) 0 n hk9 hkn hn (by rw [ez]; omega)
  refine ⟨steps, s1, s2, ?_, s3⟩
  rw [to_subscript_k_in_range N n k r _ (by omega) hr,
    (for_loop_of_steps n k (by omega) k _ 0 n (List.replicate k 0)
      (List.length_replicate k 0) (le_refl k)).2.2 steps s1]
  simp only [Nat.sub_self, List.take_zero, List.nil_append]

theorem peeling_loop_total_witness :
    ∃ steps, for_loop_steps 3 (subW (subW 120 1) 7) 0 10 = some (.ok steps) ∧
      steps.length = 3 ∧
      to_subscript_k 120 10 3 (List.replicate 3 0) ((7 : Nat) : Int) =
        some (.ok (steps.map fun s => subW (subW 10 1) s.cc)) ∧
      ∀ s ∈ steps, 1 ≤ s.pc ∧
        while_loop s.z s.j s.pc s.cc_in s.pc ((s.z + 1) % W) =
          some (.ok (s.cc, s.cc, s.value)) ∧
        s.j - 1 ≤ s.cc ∧ s.cc < s.pc ∧
        BinomialCoefficient s.cc s.j = some s.value ∧ s.value ≤ s.z :=
  peeling_loop_total 10 3 7 120 (by decide) (by decide) (by decide) (by decide) (by decide)
    (by decide)

end Discrete

namespace Discrete

/-! ## Batch encoding works block by block -/

theorem to_natural_loop_nil (k n fuel : Nat) (emitted : List Nat) :
    to_natural_loop k n fuel [] emitted = some (emitted, none) := by
  cases fuel with
  | zero => rw [to_natural_loop]
  | succ f => rw [to_natural_loop]

theorem to_natural_loop_two (n fuel : Nat) (a b : Int) (rest : List Int)
    (emitted : List Nat) :
    to_natural_loop 2 n (fuel + 1) (a :: b :: rest) emitted =
      to_natural_loop 2 n fuel rest (emitted ++ [to_natural_2 (toSizeT a) (toSizeT b) n]) := by
  rw [to_natural_loop, if_pos rfl]
  rfl

theorem to_natural_loop_undefined (k n fuel : Nat) (a : Int) (rest : List Int)
    (emitted : List Nat) (hk2 : k ≠ 2) (hl : ¬ (a :: rest).length < k)
    (h : to_natural_k ((a :: rest).take k) k n = none) :
    to_natural_loop k n (fuel + 1) (a :: rest) emitted = some (emitted, some .undefined) := by
  cases rest with
  | nil => rw [to_natural_loop, if_neg hk2, if_neg hl, h]
  | cons b rest1 => rw [to_natural_loop, if_neg hk2, if_neg hl, h]

theorem to_natural_loop_general (k n fuel : Nat) (a : Int) (rest : List Int)
    (emitted : List Nat) (v : Nat) (hk2 : k ≠ 2) (hl : ¬ (a :: rest).length < k)
    (h : to_natural_k ((a :: rest).take k) k n = some v) :
    to_natural_loop k n (fuel + 1) (a :: rest) emitted =
      to_natural_loop k n fuel ((a :: rest).drop k) (emitted ++ [v]) := by
  cases rest with
  | nil => rw [to_natural_loop, if_neg hk2, if_neg hl, h]
  | cons b rest1 => rw [to_natural_loop, if_neg hk2, if_neg hl, h]

theorem block_rank_two (n : Nat) (a b : Int) (rest : List Int) :
    block_rank 2 n (a :: b :: rest) = some (to_natural_2 (toSizeT a) (toSizeT b) n) := by
  unfold block_rank
  rw [if_pos rfl]

theorem block_rank_general (k n : Nat) (block : List Int) (hk2 : k ≠ 2) :
    block_rank k n block = to_natural_k block k n := by
  unfold block_rank
  rw [if_neg hk2]

theorem collect_none (rest : List (Option Nat)) :
    collect (none :: rest) = ([], some Fault.undefined) := rfl

theorem collect_some (v : Nat) (rest : List (Option Nat)) :
    collect (some v :: rest) = (v :: (collect rest).1, (collect rest).2) := rfl

/-- The loop of `to_natural` on a concatenation of blocks of `k` entries passes the rank of
each block to the sink, in order, until a rank is undefined. -/
theorem to_natural_loop_blocks (k n : Nat) (hk : 1 ≤ k) :
    ∀ (blocks : List (List Int)) (fuel : Nat) (emitted : List Nat),
      (∀ b ∈ blocks, b.length = k) → blocks.length ≤ fuel →
      to_natural_loop k n fuel blocks.flatten emitted =
        some (emitted ++ (collect (blocks.map (block_rank k n))).1,
          (collect (blocks.map (block_rank k n))).2) := by
  intro blocks
  induction blocks with
  | nil =>
    intro fuel emitted _ _
    rw [List.flatten_nil, to_natural_loop_nil]
    simp only [List.map_nil, collect, List.append_nil]
  | cons b bs ih =>
    intro fuel emitted hb hf
    have hbk : b.length = k := hb b (List.mem_cons_self b bs)
    have hbs : ∀ c ∈ bs, c.length = k := fun c hc => hb c (List.mem_cons_of_mem b hc)
    obtain ⟨f, rfl⟩ : ∃ f, fuel = f + 1 := ⟨fuel - 1, by simp at hf; omega⟩
    have hf2 : bs.length ≤ f := by simp at hf; omega
    rw [List.flatten_cons, List.map_cons]
    by_cases hk2 : k = 2
    · subst hk2
      obtain ⟨a, c, rfl⟩ : ∃ a c, b = [a, c] := by
        match b, hbk with
        | [a, c], _ => exact ⟨a, c, rfl⟩
      rw [block_rank_two, collect_some]
      show to_natural_loop 2 n (f + 1) (a :: c :: bs.flatten) emitted = _
      rw [to_natural_loop_two, ih f _ hbs hf2, List.append_assoc]
      rfl
    · obtain ⟨a, rest, rfl⟩ : ∃ a rest, b = a :: rest := by
        match b, hbk with
        | a :: rest, _ => exact ⟨a, rest, rfl⟩
        | [], h => simp at h; omega
      rw [block_rank_general k n _ hk2]
      have hlen : ¬ (a :: (rest ++ bs.flatten)).length < k := by
        simp only [List.length_cons, List.length_append] at hbk ⊢
        omega
      show to_natural_loop k n (f + 1) (a :: (rest ++ bs.flatten)) emitted = _
      have htake : (a :: (rest ++ bs.flatten)).take k = a :: rest :=
        @List.take_left' _ (a :: rest) bs.flatten k hbk
      have hdrop : (a :: (rest ++ bs.flatten)).drop k = bs.flatten :=
        @List.drop_left' _ (a :: rest) bs.flatten k hbk
      cases hr : to_natural_k (a :: rest) k n with
      | none =>
        rw [to_natural_loop_undefined k n f a _ emitted hk2 hlen (by rw [htake]; exact hr),
          collect_none]
        simp only [List.append_nil]
      | some v =>
        rw [to_natural_loop_general k n f a _ emitted v hk2 hlen (by rw [htake]; exact hr),
          hdrop, collect_some, ih f _ hbs hf2, List.append_assoc]
        rfl

theorem length_le_flatten (k : Nat) (hk : 1 ≤ k) :
    ∀ (blocks : List (List Int)), (∀ b ∈ blocks, b.length = k) →
      blocks.length ≤ blocks.flatten.length := by
  intro blocks
  induction blocks with
  | nil => intro _; simp
  | cons b bs ih =>
    intro hb
    have hbk : b.length = k := hb b (List.mem_cons_self b bs)
    have := ih (fun c hc => hb c (List.mem_cons_of_mem b hc))
    simp only [List.flatten_cons, List.length_cons, List.length_append]
    omega

theorem collect_all :
    ∀ (rs : List (Option Nat)) (vs : List Nat),
      List.Forall₂ (fun r v => r = some v) rs vs → collect rs = (vs, none) := by
  intro rs vs h
  induction h with
  | nil => rfl
  | @cons r v rs1 vs1 hrv _ ih =>
    subst hrv
    rw [collect_some, ih]

/-- On a concatenation of blocks of `k ≥ 1` entries, `to_natural` terminates and passes the
rank of each block to the sink, in order, until a rank is undefined. -/
theorem to_natural_eq_collect (k n : Nat) (hk : 1 ≤ k) (blocks : List (List Int))
    (hb : ∀ b ∈ blocks, b.length = k) :
    to_natural blocks.flatten k n = some (collect (blocks.map (block_rank k n))) := by
  unfold to_natural
  rw [to_natural_loop_blocks k n hk blocks _ [] hb
    (Nat.le_succ_of_le (length_le_flatten k hk blocks hb)), List.nil_append]

theorem block_ranks_two (n : Nat) :
    ∀ (blocks : List (List Int)), (∀ b ∈ blocks, b.length = 2) →
      ∃ vs, List.Forall₂ (fun b v => block_rank 2 n b = some v ∧
        ∃ a c, b = [a, c] ∧ v = to_natural_2 (toSizeT a) (toSizeT c) n) blocks vs := by
  intro blocks
  induction blocks with
  | nil => intro _; exact ⟨[], List.Forall₂.nil⟩
  | cons b bs ih =>
    intro hb
    have hbk : b.length = 2 := hb b (List.mem_cons_self b bs)
    obtain ⟨vs, hvs⟩ := ih (fun c hc => hb c (List.mem_cons_of_mem b hc))
    obtain ⟨a, c, rfl⟩ : ∃ a c, b = [a, c] := by
      match b, hbk with
      | [a, c], _ => exact ⟨a, c, rfl⟩
    exact ⟨_ :: vs, List.Forall₂.cons ⟨block_rank_two n a c [], a, c, rfl, rfl⟩ hvs⟩

/-- C15. Batch encoding, block by block. For `k = 2`, every `n` and every flat input made of
`m` consecutive blocks of two entries, `to_natural` terminates, raises nothing and calls the
sink exactly `m` times, the `t`-th value being `to_natural_2` of the two entries of the
`t`-th block. For every other `k ≥ 1` and every non-empty input made of blocks of `k`
entries, the call is undefined and the sink receives nothing: `to_natural_k` on the first
block stores `k` values of `int_t` in the `k` bytes obtained from `alloca(k)`. -/
theorem to_natural_batch (k n : Nat) (hk : 1 ≤ k) (blocks : List (List Int))
    (hb : ∀ b ∈ blocks, b.length = k) :
    (k = 2 → ∃ vs, to_natural blocks.flatten k n = some (vs, none) ∧
        vs.length = blocks.length ∧
        List.Forall₂
          (fun b v => ∃ a c, b = [a, c] ∧ v = to_natural_2 (toSizeT a) (toSizeT c) n)
          blocks vs) ∧
      (k ≠ 2 → blocks ≠ [] →
        to_natural blocks.flatten k n = some ([], some Fault.undefined) ∧
          ∀ b ∈ blocks, to_natural_k b k n = none) := by
  have h1 := to_natural_eq_collect k n hk blocks hb
  refine ⟨?_, ?_⟩
  · intro hk2
    subst hk2
    obtain ⟨vs, hvs⟩ := block_ranks_two n blocks hb
    refine ⟨vs, ?_, hvs.length_eq.symm, hvs.imp (fun b v h => h.2)⟩
    rw [h1, collect_all (blocks.map (block_rank 2 n)) vs
      (by rw [List.forall₂_map_left_iff]; exact hvs.imp (fun b v h => h.1))]
  · intro hk2 hne
    refine ⟨?_, fun b _ => to_natural_k_undefined b k n hk⟩
    rw [h1]
    cases blocks with
    | nil => exact absurd rfl hne
    | cons b bs =>
      rw [List.map_cons, block_rank_general k n b hk2, to_natural_k_undefined b k n hk,
        collect_none]

theorem to_natural_batch_witness :
    (∃ vs, to_natural [[0, 1], [8, 9]].flatten 2 10 = some (vs, none) ∧
        vs.length = [[(0 : Int), 1], [8, 9]].length ∧
        List.Forall₂
          (fun b v => ∃ a c, b = [a, c] ∧ v = to_natural_2 (toSizeT a) (toSizeT c) 10)
          [[0, 1], [8, 9]] vs) ∧
      (to_natural [[0, 1, 2], [7, 8, 9]].flatten 3 10 = some ([], some Fault.undefined) ∧
        ∀ b ∈ [[(0 : Int), 1, 2], [7, 8, 9]], to_natural_k b 3 10 = none) :=
  ⟨(to_natural_batch 2 10 (by decide) [[0, 1], [8, 9]] (by decide)).1 rfl,
    (to_natural_batch 3 10 (by decide) [[0, 1, 2], [7, 8, 9]] (by decide)).2
      (by decide) (by decide)⟩

end Discrete

namespace Discrete

/-! ## The inverse of `C(n, 2)` -/

theorem inv_choose_2_find_nil (x : Nat) : inv_choose_2_find x [] = some 0 := rfl

theorem inv_choose_2_find_hit (x c : Nat) (rest : List Nat)
    (h : BinomialCoefficient c 2 = some x) : inv_choose_2_find x (c :: rest) = some c := by
  rw [inv_choose_2_find, h]
  simp only [if_true]

theorem inv_choose_2_find_miss (x c v : Nat) (rest : List Nat)
    (h : BinomialCoefficient c 2 = some v) (hne : x ≠ v) :
    inv_choose_2_find x (c :: rest) = inv_choose_2_find x rest := by
  rw [inv_choose_2_find, h]
  simp only [if_neg hne]

theorem inv_choose_2_find_none (x : Nat) :
    ∀ l : List Nat, (∀ c ∈ l, ∃ v, BinomialCoefficient c 2 = some v ∧ x ≠ v) →
      inv_choose_2_find x l = some 0 := by
  intro l
  induction l with
  | nil => intro _; rfl
  | cons c rest ih =>
    intro h
    obtain ⟨v, hv, hne⟩ := h c (List.mem_cons_self c rest)
    rw [inv_choose_2_find_miss x c v rest hv hne]
    exact ih (fun d hd => h d (List.mem_cons_of_mem c hd))

theorem BinomialCoefficient_two (c : Nat) (hc : c < 2 ^ 32 + 4) :
    BinomialCoefficient c 2 = some (c * (c - 1) / 2) := by
  have hW := W_eq
  have h1 : c * (c - 1) ≤ (2 ^ 32 + 4) * (2 ^ 32 + 4) := Nat.mul_le_mul (by omega) (by omega)
  have h2 : (2 ^ 32 + 4) * (2 ^ 32 + 4) = 18446744108069290000 := by norm_num
  rw [BinomialCoefficient_digit c 2 (by omega) (by decide) (by decide), Nat.choose_two_right,
    Nat.mod_eq_of_lt (by omega)]

/-- The candidates of `inv_choose_2`: `a`, `a + 1`, ... up to `b`, where `a` is the square
root of `2*x` in `size_t`. -/
theorem inv_choose_2_eq (x a : Nat) (ha : Nat.sqrt ((2 * x) % W) = a) :
    inv_choose_2 x =
      inv_choose_2_find x
        ((List.range ((subW (if a * a = (2 * x) % W then a + 2 else a + 3) a + 1) % W)).map
          fun t => (a + t) % W) := by
  unfold inv_choose_2
  simp only []
  rw [ha]

theorem sqrt_lt_two_pow_32 (v : Nat) (hv : v < W) : Nat.sqrt v < 2 ^ 32 := by
  rw [Nat.sqrt_lt]
  have hW := W_eq
  have : (2 : Nat) ^ 32 * 2 ^ 32 = 18446744073709551616 := by norm_num
  omega

theorem candidates_eq (a : Nat) (ha : a < 2 ^ 32) (sq : Prop) [Decidable sq] :
    (List.range ((subW (if sq then a + 2 else a + 3) a + 1) % W)).map
        (fun t => (a + t) % W) =
      if sq then [a, a + 1, a + 2] else [a, a + 1, a + 2, a + 3] := by
  have hW := W_eq
  have m0 : (a + 0) % W = a := Nat.mod_eq_of_lt (by omega)
  have m1 : (a + 1) % W = a + 1 := Nat.mod_eq_of_lt (by omega)
  have m2 : (a + 2) % W = a + 2 := Nat.mod_eq_of_lt (by omega)
  have m3 : (a + 3) % W = a + 3 := Nat.mod_eq_of_lt (by omega)
  by_cases h : sq
  · rw [if_pos h, if_pos h]
    have e : (subW (a + 2) a + 1) % W = 3 := by
      rw [subW_eq _ _ (by omega) (by omega)]
      have : a + 2 - a + 1 = 3 := by omega
      rw [this]
      rfl
    rw [e]
    show [(a + 0) % W, (a + 1) % W, (a + 2) % W] = _
    rw [m0, m1, m2]
  · rw [if_neg h, if_neg h]
    have e : (subW (a + 3) a + 1) % W = 4 := by
      rw [subW_eq _ _ (by omega) (by omega)]
      have : a + 3 - a + 1 = 4 := by omega
      rw [this]
      rfl
    rw [e]
    show [(a + 0) % W, (a + 1) % W, (a + 2) % W, (a + 3) % W] = _
    rw [m0, m1, m2, m3]

theorem candidates_lt (a : Nat) (ha : a < 2 ^ 32) (sq : Prop) [Decidable sq] :
    ∀ c ∈ (if sq then [a, a + 1, a + 2] else [a, a + 1, a + 2, a + 3]), c < 2 ^ 32 + 4 := by
  intro c hc
  by_cases h : sq
  · rw [if_pos h] at hc
    simp only [List.mem_cons, List.mem_singleton, List.not_mem_nil, or_false] at hc
    omega
  · rw [if_neg h] at hc
    simp only [List.mem_cons, List.mem_singleton, List.not_mem_nil, or_false] at hc
    omega

/-- C13. Inverse of choose-2 while `2*x` fits in 64 bits: for every `n` with
`2 ≤ n ≤ 2 ^ 32`, `inv_choose_2 (n(n-1)/2) = n`; and for every `x` that is not of the form
`m(m-1)/2`, `inv_choose_2 (x) = 0` (square roots taken exactly). -/
theorem inv_choose_2_spec :
    (∀ n, 2 ≤ n → n ≤ 2 ^ 32 → inv_choose_2 (n * (n - 1) / 2) = some n) ∧
    (∀ x, x < W → (∀ m, x ≠ m * (m - 1) / 2) → inv_choose_2 x = some 0) := by
  have hW := W_eq
  constructor
  · intro n h2 hn
    obtain ⟨m, rfl⟩ : ∃ m, n = m + 1 := ⟨n - 1, by omega⟩
    rw [Nat.add_sub_cancel]
    have hev := mul_succ_even m
    have e0 : (m + 1) * m = m * (m + 1) := Nat.mul_comm _ _
    have e1 : m * (m + 1) = m * m + m := by ring
    have hb : m * m ≤ (2 ^ 32 - 1) * (2 ^ 32 - 1) := Nat.mul_le_mul (by omega) (by omega)
    have hb2 : (2 ^ 32 - 1) * (2 ^ 32 - 1) = 18446744065119617025 := by norm_num
    have hv : (2 * ((m + 1) * m / 2)) % W = m * m + m := by
      rw [e0, Nat.mod_eq_of_lt (by omega)]
      omega
    have hs : Nat.sqrt ((2 * ((m + 1) * m / 2)) % W) = m := by
      rw [hv]
      exact Nat.sqrt_add_eq m (by omega)
    have hmm : m ≤ m * m := Nat.le_mul_self m
    rw [inv_choose_2_eq _ m hs, candidates_eq m (by omega), hv, if_neg (by omega)]
    have c0 : BinomialCoefficient m 2 = some (m * (m - 1) / 2) :=
      BinomialCoefficient_two m (by omega)
    have c1 : BinomialCoefficient (m + 1) 2 = some ((m + 1) * m / 2) := by
      rw [BinomialCoefficient_two (m + 1) (by omega), Nat.add_sub_cancel]
    have hne : (m + 1) * m / 2 ≠ m * (m - 1) / 2 := by
      have e2 : m * (m - 1) = m * m - m := Nat.mul_sub_one m m
      have hev2 := mul_pred_even m
      rw [e0, e1, e2]
      rw [e2] at hev2
      rw [e1] at hev
      omega
    rw [inv_choose_2_find_miss _ m _ _ c0 hne, inv_choose_2_find_hit _ (m + 1) _ c1]
  · intro x hx hform
    have ha := sqrt_lt_two_pow_32 ((2 * x) % W) (Nat.mod_lt _ W_pos)
    rw [inv_choose_2_eq x _ rfl, candidates_eq _ ha]
    apply inv_choose_2_find_none
    intro c hc
    exact ⟨_, BinomialCoefficient_two c (candidates_lt _ ha _ c hc), hform c⟩

theorem inv_choose_2_spec_witness :
    inv_choose_2 (5 * (5 - 1) / 2) = some 5 ∧ inv_choose_2 4 = some 0 :=
  ⟨inv_choose_2_spec.1 5 (by decide) (by decide),
   inv_choose_2_spec.2 4 (by decide) (by
    intro m
    by_cases h : m ≤ 3
    · interval_cases m <;> decide
    · have h1 : 4 * 3 ≤ m * (m - 1) := Nat.mul_le_mul (by omega) (by omega)
      omega)⟩

theorem sqrt_two_pow_32 : Nat.sqrt 4294967296 = 65536 := Nat.sqrt_eq 65536

/-- C13, as stated for every `n ≥ 2`, fails at `n = 2 ^ 32 + 1`: `x = n(n-1)/2` is
`9223372039002259456`, a valid `size_t`, but `2*x` wraps to `2 ^ 32` in 64 bits, the
candidates are `65536`, `65537`, `65538`, none of them matches and `inv_choose_2` returns
`0`. -/
theorem inv_choose_2_wraps :
    4294967297 * (4294967297 - 1) / 2 = 9223372039002259456 ∧
      9223372039002259456 < W ∧ inv_choose_2 9223372039002259456 = some 0 := by
  refine ⟨by decide, by decide, ?_⟩
  have hv : (2 * 9223372039002259456) % W = 4294967296 := by decide
  have hs : Nat.sqrt ((2 * 9223372039002259456) % W) = 65536 := by
    rw [hv]
    exact sqrt_two_pow_32
  rw [inv_choose_2_eq _ 65536 hs, candidates_eq 65536 (by decide), hv, if_pos (by decide)]
  apply inv_choose_2_find_none
  intro c hc
  simp only [List.mem_cons, List.mem_singleton, List.not_mem_nil, or_false] at hc
  refine ⟨_, BinomialCoefficient_two c (by omega), ?_⟩
  rcases hc with rfl | rfl | rfl <;> decide

end Discrete
